import Mathlib

/-!
Verification of the `l3queue` queue library against its specification.

The library offers FIFO queues over a singly-linked chain with a permanent
sentinel head:
* `LinkedQueue` (`src/lq.rs`) — lock-free, raw pointers, immediate free;
* `CrsQueue` (`src/crs_queue.rs`) — lock-free, epoch reclamation, local-walk
  push repair;
* `HeQueue` (`src/he_queue.rs`) — lock-free, epoch reclamation, helper-repair
  push;
* `LockQueue` (`src/lock_queue.rs`) — mutex-guarded `LinkedList` baseline.

The lock-free variants are embedded over an explicit arena: addresses are
indices into `mem`, the null pointer is `Option.none`, and each Rust loop
becomes a fueled recursion.  An operation returns `none` (at the outer
`Option`) exactly when the source would exhibit undefined behavior — a null
or dangling dereference, or a walk that never terminates.  The embedding is
sequential (single-threaded interleaving): a compare-and-swap whose snapshot
was taken in the same operation with no interference in between always
succeeds; the phase functions for `CrsQueue::pop` additionally let us replay
interleaved schedules of two `pop` calls at the granularity of the source's
atomic steps.
-/

set_option autoImplicit false

universe u

/-- Linked-list cell shared by all lock-free variants (`Node<T>` in `lq.rs`,
`crs_queue.rs` and `he_queue.rs`): an optional payload slot `item` and a
`next` pointer, where `none` models the null pointer. -/
structure Node (α : Type u) where
  item : Option α
  next : Option Nat
deriving DecidableEq

/-- Shared state shape of the three linked lock-free queues (`LinkedQueue`,
`CrsQueue`, `HeQueue`): an arena `mem` (address = index, allocation appends),
the addresses already freed (`Box::from_raw` in `lq.rs`, or a dropped
`Owned` in `crs_queue.rs` — dereferencing one is undefined behavior), the
addresses handed to `defer_destroy` (epoch variants — still readable until
reclaimed), the `head` and `tail` pointers, and the advisory `len` counter. -/
structure QState (α : Type u) where
  mem : List (Node α)
  freed : List Nat
  detached : List Nat
  head : Nat
  tail : Nat
  len : Nat
deriving DecidableEq

/-- Dereference address `a`: undefined (`none`) when outside the arena or
already freed.  Deferred-destroyed nodes are still allocated, hence
readable — that is the point of the epoch scheme. -/
def aliveRead {α : Type u} (s : QState α) (a : Nat) : Option (Node α) :=
  if a ∈ s.freed then none else s.mem[a]?

/-- Store node `n` at address `a`; models a single-field write through a
pointer. -/
def writeNode {α : Type u} (s : QState α) (a : Nat) (n : Node α) : QState α :=
  { s with mem := s.mem.set a n }

/-- `Box::into_raw(Box::new(..))` / `Owned::new(..).into_shared(..)`:
allocate a fresh address at the end of the arena. -/
def allocNode {α : Type u} (s : QState α) (n : Node α) : QState α × Nat :=
  ({ s with mem := s.mem ++ [n] }, s.mem.length)

/-- The walk to the true last node used after a failed link CAS, from
`lq.rs` lines 78-88 and `crs_queue.rs` lines 82-93: follow non-null `next`
references until a node with null `next` is found.  The fuel bounds the walk;
running out models the divergence a cyclic chain would cause. -/
def walkToLast {α : Type u} (s : QState α) : Nat → Nat → Option Nat
  | 0, _ => none
  | fuel + 1, a =>
    match aliveRead s a with
    | none => none
    | some n =>
      match n.next with
      | none => some a
      | some b => walkToLast s fuel b

/-- The link-CAS retry loop shared (line for line) by `LinkedQueue::enqueue`
(`lq.rs` 68-89) and `CrsQueue::push` (`crs_queue.rs` 72-94): attempt to CAS
the `next` field of node `a` from null to `nodePtr`; on failure walk from the
observed successor to the true last node and retry there. -/
def linkLoop {α : Type u} (s : QState α) (nodePtr : Nat) : Nat → Nat → Option (QState α)
  | 0, _ => none
  | fuel + 1, a =>
    match aliveRead s a with
    | none => none
    | some n =>
      match n.next with
      | none => some (writeNode s a { n with next := some nodePtr })
      | some b =>
        match walkToLast s (s.mem.length + 1) b with
        | none => none
        | some last => linkLoop s nodePtr fuel last

/-- Head snapshot and its non-null successor, as read at the top of the pop
loops (`crs_queue.rs` 115-116, `he_queue.rs` 111-112). -/
structure PopObs where
  head : Nat
  next : Nat
deriving DecidableEq

/-- Outcome of a pop loop: `empty` models the `return None` taken at the
null-`next` check inside the loop (which skips the trailing `len`
decrement in both epoch variants), `broke` the loop break after a winning
head-advance CAS, carrying the extracted payload. -/
inductive PopOutcome (α : Type u)
  | empty : QState α → PopOutcome α
  | broke : QState α → Option α → PopOutcome α
deriving DecidableEq

/-- Read phase of a pop-loop iteration (`crs_queue.rs` 115-120, identically
`he_queue.rs` 111-116): load the `head` snapshot and its `next`; `some none`
is the "next is null, return no element" outcome, the outer `none` a dangling
dereference. -/
def popRead {α : Type u} (s : QState α) : Option (Option PopObs) :=
  match aliveRead s s.head with
  | none => none
  | some hn =>
    match hn.next with
    | none => some none
    | some nx => some (some { head := s.head, next := nx })

namespace LinkedQueue

/-- `LinkedQueue::default` / `new` (`lq.rs` 35-51): one empty sentinel,
`head = tail = sentinel`, `len = 0`. -/
def new (α : Type u) : QState α :=
  { mem := [{ item := none, next := none }], freed := [], detached := [],
    head := 0, tail := 0, len := 0 }

/-- `LinkedQueue::is_empty` (`lq.rs` 53-55): the advisory counter reads 0. -/
def is_empty {α : Type u} (s : QState α) : Bool :=
  s.len == 0

/-- Structural phase of `LinkedQueue::enqueue` (`lq.rs` 57-98): allocate the
new node, run the link-CAS retry loop from the `tail` snapshot, then make the
best-effort swing of the shared `tail` to the new node.  The trailing
`fetch_add` on `len` (`lq.rs` 100) is added by `enqueue` itself. -/
def enqueueStruct {α : Type u} (s : QState α) (x : α) : Option (QState α) :=
  let p := allocNode s { item := some x, next := none }
  let old_tail := p.1.tail
  match linkLoop p.1 p.2 (p.1.mem.length + 1) old_tail with
  | none => none
  | some s2 => some (if s2.tail = old_tail then { s2 with tail := p.2 } else s2)

/-- `LinkedQueue::enqueue` (`lq.rs` 57-104): the structural phase followed by
the advisory counter increment. -/
def enqueue {α : Type u} (s : QState α) (x : α) : Option (QState α) :=
  (enqueueStruct s x).map (fun s2 => { s2 with len := s2.len + 1 })

/-- `LinkedQueue::dequeue` (`lq.rs` 106-127).  Advisory fast path first; then
the head snapshot and its `next` are read and the head-advance CAS performed
(sequentially the snapshot is current, so the CAS succeeds on the first
attempt).  The source has no null check on `next`: when `len ≠ 0` and `next`
is null the CAS stores null into `head`, the old sentinel is freed, and
`(*next).item.take()` dereferences null — modeled as undefined behavior
(outer `none`).  On the normal path the old sentinel is freed immediately
(`Box::from_raw`), `len` is decremented, and the new sentinel's payload is
taken. -/
def dequeue {α : Type u} (s : QState α) : Option (QState α × Option α) :=
  if s.len == 0 then some (s, none)
  else
    match aliveRead s s.head with
    | none => none
    | some hn =>
      match hn.next with
      | none => none
      | some nx =>
        let s1 : QState α := { s with head := nx }
        let s2 : QState α := { s1 with freed := s1.freed ++ [s.head] }
        let s3 : QState α := { s2 with len := s2.len - 1 }
        match aliveRead s3 nx with
        | none => none
        | some nn => some (writeNode s3 nx { nn with item := none }, nn.item)

end LinkedQueue

namespace CrsQueue

/-- `CrsQueue::default` / `new` (`crs_queue.rs` 37-52). -/
def new (α : Type u) : QState α :=
  { mem := [{ item := none, next := none }], freed := [], detached := [],
    head := 0, tail := 0, len := 0 }

/-- `CrsQueue::size` (`crs_queue.rs` 54-56): the advisory counter. -/
def size {α : Type u} (s : QState α) : Nat :=
  s.len

/-- `CrsQueue::is_empty` (`crs_queue.rs` 58-62): `compare_exchange(0, 0)` on
`len` succeeds exactly when the counter reads zero. -/
def is_empty {α : Type u} (s : QState α) : Bool :=
  s.len == 0

/-- Structural phase of `CrsQueue::push` (`crs_queue.rs` 64-102): allocate,
run the link-CAS loop with the local walk (the loop is line for line the one
of `LinkedQueue::enqueue`, hence shared as `linkLoop` via
`LinkedQueue.enqueueStruct`), then the best-effort tail swing.  The
`fetch_add` on `len` (`crs_queue.rs` 104) is added by `push`. -/
def pushStruct {α : Type u} (s : QState α) (x : α) : Option (QState α) :=
  LinkedQueue.enqueueStruct s x

/-- `CrsQueue::push` (`crs_queue.rs` 64-105). -/
def push {α : Type u} (s : QState α) (x : α) : Option (QState α) :=
  (pushStruct s x).map (fun s2 => { s2 with len := s2.len + 1 })

/-- Take phase of a `CrsQueue::pop` iteration (`crs_queue.rs` 122):
`data = next.deref_mut().item.take()` — executed BEFORE the head-advance
CAS, leaving the successor's payload slot empty whether or not the CAS that
follows succeeds. -/
def popTake {α : Type u} (s : QState α) (o : PopObs) : Option (QState α × Option α) :=
  match aliveRead s o.next with
  | none => none
  | some nn => some (writeNode s o.next { nn with item := none }, nn.item)

/-- CAS phase of a `CrsQueue::pop` iteration (`crs_queue.rs` 123-132):
`compare_exchange(head, next)`.  On success the successor becomes the new
sentinel and the old one is handed to `defer_destroy`.  On failure the
`Owned` created by `next.into_owned()` (`crs_queue.rs` 123) is dropped with
the error value, deallocating the still-linked successor node. -/
def popCas {α : Type u} (s : QState α) (o : PopObs) : QState α × Bool :=
  if s.head = o.head then
    ({ s with head := o.next, detached := s.detached ++ [o.head] }, true)
  else
    ({ s with freed := s.freed ++ [o.next] }, false)

/-- The retry loop of `CrsQueue::pop` (`crs_queue.rs` 113-134): read, take
(before the CAS!), CAS; break on a winning CAS, retry otherwise.  The
trailing `len` decrement (`crs_queue.rs` 135) is applied by `pop` only to the
`broke` outcome, matching the in-loop `return None`. -/
def popLoop {α : Type u} (s : QState α) : Nat → Option (PopOutcome α)
  | 0 => none
  | fuel + 1 =>
    match popRead s with
    | none => none
    | some none => some (.empty s)
    | some (some o) =>
      match popTake s o with
      | none => none
      | some (s1, data) =>
        let r := popCas s1 o
        if r.2 then some (.broke r.1 data)
        else popLoop r.1 fuel

/-- `CrsQueue::pop` (`crs_queue.rs` 107-137): advisory fast path, the loop,
then the counter decrement after a successful detach. -/
def pop {α : Type u} (s : QState α) : Option (QState α × Option α) :=
  if is_empty s then some (s, none)
  else
    match popLoop s (s.mem.length + 1) with
    | none => none
    | some (.empty s1) => some (s1, none)
    | some (.broke s1 data) => some ({ s1 with len := s1.len - 1 }, data)

end CrsQueue

namespace HeQueue

/-- `HeQueue::default` / `new` (`he_queue.rs` 40-55). -/
def new (α : Type u) : QState α :=
  { mem := [{ item := none, next := none }], freed := [], detached := [],
    head := 0, tail := 0, len := 0 }

/-- `HeQueue::size` (`he_queue.rs` 57-59). -/
def size {α : Type u} (s : QState α) : Nat :=
  s.len

/-- `HeQueue::is_empty` (`he_queue.rs` 61-63). -/
def is_empty {α : Type u} (s : QState α) : Bool :=
  s.len == 0

/-- The retry loop of `HeQueue::push` (`he_queue.rs` 70-91): re-read the
shared `tail` each iteration and attempt the link CAS at its `next`; on
failure swing the shared `tail` one node forward (helper repair) and retry.
Returns the state together with the `tail` snapshot of the winning iteration,
used by the post-loop swing. -/
def pushLoop {α : Type u} (nodePtr : Nat) : Nat → QState α → Option (QState α × Nat)
  | 0, _ => none
  | fuel + 1, s =>
    match aliveRead s s.tail with
    | none => none
    | some tn =>
      match tn.next with
      | none => some (writeNode s s.tail { tn with next := some nodePtr }, s.tail)
      | some nxt =>
        pushLoop nodePtr fuel { s with tail := nxt }

/-- Structural phase of `HeQueue::push` (`he_queue.rs` 65-98): allocate, run
the helper-repair loop, then the best-effort swing of `tail` to the new node.
The `fetch_add` on `len` (`he_queue.rs` 100) is added by `push`. -/
def pushStruct {α : Type u} (s : QState α) (x : α) : Option (QState α) :=
  let p := allocNode s { item := some x, next := none }
  match pushLoop p.2 (p.1.mem.length + 1) p.1 with
  | none => none
  | some (s2, tl) => some (if s2.tail = tl then { s2 with tail := p.2 } else s2)

/-- `HeQueue::push` (`he_queue.rs` 65-101). -/
def push {α : Type u} (s : QState α) (x : α) : Option (QState α) :=
  (pushStruct s x).map (fun s2 => { s2 with len := s2.len + 1 })

/-- Head-advance CAS of `HeQueue::pop` (`he_queue.rs` 118-121): on success
the successor becomes the sentinel; a failed attempt has no side effect. -/
def popCas {α : Type u} (s : QState α) (o : PopObs) : QState α × Bool :=
  if s.head = o.head then ({ s with head := o.next }, true) else (s, false)

/-- The retry loop of `HeQueue::pop` (`he_queue.rs` 109-128): read, CAS, and
only on a winning CAS take the payload (`he_queue.rs` 123) and hand the old
sentinel to `defer_destroy`. -/
def popLoop {α : Type u} (s : QState α) : Nat → Option (PopOutcome α)
  | 0 => none
  | fuel + 1 =>
    match popRead s with
    | none => none
    | some none => some (.empty s)
    | some (some o) =>
      let r := popCas s o
      if r.2 then
        match aliveRead r.1 o.next with
        | none => none
        | some nn =>
          let s2 := writeNode r.1 o.next { nn with item := none }
          some (.broke { s2 with detached := s2.detached ++ [o.head] } nn.item)
      else popLoop r.1 fuel

/-- `HeQueue::pop` (`he_queue.rs` 103-131): advisory fast path, the loop,
then the counter decrement after a successful detach. -/
def pop {α : Type u} (s : QState α) : Option (QState α × Option α) :=
  if is_empty s then some (s, none)
  else
    match popLoop s (s.mem.length + 1) with
    | none => none
    | some (.empty s1) => some (s1, none)
    | some (.broke s1 data) => some ({ s1 with len := s1.len - 1 }, data)

end HeQueue

/-- `LockQueue<T>` (`lock_queue.rs` 2-32): a mutex-guarded
`std::collections::LinkedList`; sequentially this is the list of queued
items, front first. -/
structure LockQueue (α : Type u) where
  inner : List α
deriving DecidableEq

namespace LockQueue

/-- `LockQueue::default` / `new` (`lock_queue.rs` 6-16). -/
def new (α : Type u) : LockQueue α :=
  ⟨[]⟩

/-- `LockQueue::is_empty` (`lock_queue.rs` 18-21): emptiness of the guarded
list itself. -/
def is_empty {α : Type u} (q : LockQueue α) : Bool :=
  q.inner.isEmpty

/-- `LockQueue::push` (`lock_queue.rs` 23-26): `push_back`. -/
def push {α : Type u} (q : LockQueue α) (x : α) : LockQueue α :=
  ⟨q.inner ++ [x]⟩

/-- `LockQueue::pop` (`lock_queue.rs` 28-31): `pop_front`. -/
def pop {α : Type u} (q : LockQueue α) : LockQueue α × Option α :=
  match q.inner with
  | [] => (q, none)
  | x :: rest => (⟨rest⟩, some x)

end LockQueue

/-! ### Canonical sequential states

A sequential run from `new` that has pushed the items `xs` (in order) and
popped `k` of them is in a completely determined state: the arena holds the
sentinel at address 0 followed by one node per pushed item, the chain is the
consecutive address range, `head` has advanced to address `k`, `tail` points
at the last allocated node, and the payloads of the `k` consumed nodes have
been taken. -/

/-- The node such a state stores at address `a`: address 0 is the original
sentinel, address `i + 1` holds the `i`-th pushed item (already taken once
the node became sentinel or was consumed, i.e. `a ≤ k`), each node linked to
its allocation successor and the last one to null. -/
def canonNodeAt {α : Type u} (xs : List α) (k a : Nat) : Node α :=
  { item := if a ≤ k then none else xs[a - 1]?,
    next := if a < xs.length then some (a + 1) else none }

/-- Arena of the canonical state: sentinel plus one node per pushed item. -/
def canonMem {α : Type u} (xs : List α) (k : Nat) : List (Node α) :=
  (List.range (xs.length + 1)).map (canonNodeAt xs k)

/-- Canonical state of the epoch variants (`CrsQueue`, `HeQueue`): detached
sentinels are deferred-destroyed, nothing is freed outright. -/
def canonEp {α : Type u} (xs : List α) (k : Nat) : QState α :=
  { mem := canonMem xs k, freed := [], detached := List.range k,
    head := k, tail := xs.length, len := xs.length - k }

/-- Canonical state of `LinkedQueue`: detached sentinels are freed
immediately. -/
def canonLq {α : Type u} (xs : List α) (k : Nat) : QState α :=
  { mem := canonMem xs k, freed := List.range k, detached := [],
    head := k, tail := xs.length, len := xs.length - k }

/-! ### Call sequences -/

/-- External calls of the epoch variants' public surface. -/
inductive QOp (α : Type u)
  | push : α → QOp α
  | pop : QOp α
  | size : QOp α
  | is_empty : QOp α

/-- Observable result of one call. -/
inductive QOut (α : Type u)
  | ok : QOut α
  | popped : Option α → QOut α
  | count : Nat → QOut α
  | flag : Bool → QOut α
deriving DecidableEq

/-- One `CrsQueue` call. -/
def crsStep {α : Type u} (s : QState α) : QOp α → Option (QState α × QOut α)
  | .push x => (CrsQueue.push s x).map (fun s' => (s', .ok))
  | .pop => (CrsQueue.pop s).map (fun r => (r.1, .popped r.2))
  | .size => some (s, .count (CrsQueue.size s))
  | .is_empty => some (s, .flag (CrsQueue.is_empty s))

/-- A sequence of `CrsQueue` calls, collecting every call's result; `none`
as soon as one call runs into undefined behavior. -/
def crsRun {α : Type u} : QState α → List (QOp α) → Option (QState α × List (QOut α))
  | s, [] => some (s, [])
  | s, op :: ops =>
    match crsStep s op with
    | none => none
    | some (s', out) =>
      match crsRun s' ops with
      | none => none
      | some (s'', outs) => some (s'', out :: outs)

/-- One `HeQueue` call. -/
def heStep {α : Type u} (s : QState α) : QOp α → Option (QState α × QOut α)
  | .push x => (HeQueue.push s x).map (fun s' => (s', .ok))
  | .pop => (HeQueue.pop s).map (fun r => (r.1, .popped r.2))
  | .size => some (s, .count (HeQueue.size s))
  | .is_empty => some (s, .flag (HeQueue.is_empty s))

/-- A sequence of `HeQueue` calls. -/
def heRun {α : Type u} : QState α → List (QOp α) → Option (QState α × List (QOut α))
  | s, [] => some (s, [])
  | s, op :: ops =>
    match heStep s op with
    | none => none
    | some (s', out) =>
      match heRun s' ops with
      | none => none
      | some (s'', outs) => some (s'', out :: outs)

/-- External calls of `LinkedQueue`'s public surface (it has no `size`). -/
inductive LqOp (α : Type u)
  | push : α → LqOp α
  | pop : LqOp α
  | is_empty : LqOp α

/-- One `LinkedQueue` call. -/
def lqStep {α : Type u} (s : QState α) : LqOp α → Option (QState α × QOut α)
  | .push x => (LinkedQueue.enqueue s x).map (fun s' => (s', .ok))
  | .pop => (LinkedQueue.dequeue s).map (fun r => (r.1, .popped r.2))
  | .is_empty => some (s, .flag (LinkedQueue.is_empty s))

/-- A sequence of `LinkedQueue` calls. -/
def lqRun {α : Type u} : QState α → List (LqOp α) → Option (QState α × List (QOut α))
  | s, [] => some (s, [])
  | s, op :: ops =>
    match lqStep s op with
    | none => none
    | some (s', out) =>
      match lqRun s' ops with
      | none => none
      | some (s'', outs) => some (s'', out :: outs)

/-- The abstract FIFO a sequential run follows: `xs` the items pushed so far
(in order), `k` how many of them have been popped. -/
def absStep {α : Type u} (xs : List α) (k : Nat) : QOp α → (List α × Nat) × QOut α
  | .push x => ((xs ++ [x], k), .ok)
  | .pop =>
    if k < xs.length then ((xs, k + 1), .popped xs[k]?) else ((xs, k), .popped none)
  | .size => ((xs, k), .count (xs.length - k))
  | .is_empty => ((xs, k), .flag (xs.length - k == 0))

/-- Abstract run. -/
def absRun {α : Type u} : List α → Nat → List (QOp α) → (List α × Nat) × List (QOut α)
  | xs, k, [] => ((xs, k), [])
  | xs, k, op :: ops =>
    let r := absStep xs k op
    let r' := absRun r.1.1 r.1.2 ops
    (r'.1, r.2 :: r'.2)

/-- Push a whole list in order with the given push operation. -/
def pushAll {α : Type u} (pushOp : QState α → α → Option (QState α)) :
    QState α → List α → Option (QState α)
  | s, [] => some s
  | s, x :: xs =>
    match pushOp s x with
    | none => none
    | some s' => pushAll pushOp s' xs

/-- Pop `n` times with the given pop operation, collecting the results. -/
def popN {α : Type u} (popOp : QState α → Option (QState α × Option α)) :
    QState α → Nat → Option (QState α × List (Option α))
  | s, 0 => some (s, [])
  | s, n + 1 =>
    match popOp s with
    | none => none
    | some (s', v) =>
      match popN popOp s' n with
      | none => none
      | some (s'', vs) => some (s'', v :: vs)

/-- Pop `n` times from a `LockQueue`, collecting the results. -/
def lockPopN {α : Type u} : LockQueue α → Nat → LockQueue α × List (Option α)
  | q, 0 => (q, [])
  | q, n + 1 =>
    let r := LockQueue.pop q
    let r' := lockPopN r.1 n
    (r'.1, r.2 :: r'.2)

/-! ### Chain invariants

`NodeChain s a l` says that `l` is the exact chain of addresses obtained from
`a` by following `next` pointers through live (allocated, unfreed) nodes to
the first node whose `next` is null. -/

/-- The chain of addresses from `a` to the true last node. -/
inductive NodeChain {α : Type u} (s : QState α) : Nat → List Nat → Prop
  | last {a : Nat} {n : Node α} : aliveRead s a = some n → n.next = none →
      NodeChain s a [a]
  | cons {a b : Nat} {n : Node α} {l : List Nat} : aliveRead s a = some n →
      n.next = some b → NodeChain s b l → NodeChain s a (a :: l)

/-- Fueled computation of the chain from `a` (the executable counterpart of
`NodeChain`). -/
def chainAux {α : Type u} (s : QState α) : Nat → Nat → Option (List Nat)
  | 0, _ => none
  | fuel + 1, a =>
    match aliveRead s a with
    | none => none
    | some n =>
      match n.next with
      | none => some [a]
      | some b => (chainAux s fuel b).map (fun l => a :: l)

/-- The chain from `head`, with fuel large enough for any acyclic chain. -/
def chainOf {α : Type u} (s : QState α) : Option (List Nat) :=
  chainAux s (s.mem.length + 1) s.head

/-- The structural invariant of claim C5, relative to an explicit chain `l`:
the chain from `head` is acyclic (it terminates at a null `next` and never
revisits a node), the queue owns exactly one live sentinel — the node at the
head position, the only chain node whose payload slot is empty — and no
chain node has been detached or freed (freed is automatic: `chainOf` only
follows live nodes). -/
def ChainInvL {α : Type u} (s : QState α) (l : List Nat) : Prop :=
  chainOf s = some l ∧
  l.Nodup ∧
  (aliveRead s s.head).map Node.item = some none ∧
  (∀ a ∈ l, a ∉ s.detached) ∧
  (∀ a ∈ l, a ≠ s.head → ((aliveRead s a).bind Node.item).isSome = true) ∧
  (∀ f ∈ s.freed, f < s.mem.length) ∧
  (∀ f ∈ s.detached, f < s.mem.length)

/-- The structural invariant of claim C5. -/
def ChainInv {α : Type u} (s : QState α) : Prop :=
  ∃ l, ChainInvL s l

/-- The full spec §3 invariant needed for push termination (claim C9): the
chain invariant plus "`tail` always references some node in the chain". -/
def PushInvL {α : Type u} (s : QState α) (l : List Nat) : Prop :=
  ChainInvL s l ∧ s.tail ∈ l

/-! ### Public surfaces (claim C7)

The public methods each variant defines in its `impl` blocks, in source
order (`lq.rs` 48-128, `lock_queue.rs` 13-32, `crs_queue.rs` 49-167,
`he_queue.rs` 52-164). -/

/-- Public methods of `LinkedQueue<T>`. -/
def linkedQueueMethods : List String :=
  ["new", "is_empty", "enqueue", "dequeue"]

/-- Public methods of `LockQueue<T>`. -/
def lockQueueMethods : List String :=
  ["new", "is_empty", "push", "pop"]

/-- Public methods of `CrsQueue<T>`. -/
def crsQueueMethods : List String :=
  ["new", "size", "is_empty", "push", "pop", "walk"]

/-- Public methods of `HeQueue<T>`. -/
def heQueueMethods : List String :=
  ["new", "size", "is_empty", "push", "pop", "walk"]

/-! ### Concrete states for the refutations -/

/-- A `LinkedQueue` state with a positive advisory counter but no successor
behind the sentinel.  It arises under concurrency: one consumer's `dequeue`
has detached the only node but has not yet executed its `fetch_sub`, while a
second consumer starts `dequeue` (the situation the multi-consumer tests of
`lq.rs` provoke). -/
def lqBadState : QState Nat :=
  { mem := [{ item := none, next := none }], freed := [], detached := [],
    head := 0, tail := 0, len := 1 }

/-- A two-element `CrsQueue` (the canonical state after pushing 1 then 2). -/
def c2Init : QState Nat :=
  { mem := [{ item := none, next := some 1 }, { item := some 1, next := some 2 },
            { item := some 2, next := none }],
    freed := [], detached := [], head := 0, tail := 2, len := 2 }

/-- `c2Init` after consumer A's take phase: A holds payload 1 privately, the
slot of the still-linked node 1 is already empty, no CAS has happened. -/
def c2AfterTake : QState Nat :=
  { mem := [{ item := none, next := some 1 }, { item := none, next := some 2 },
            { item := some 2, next := none }],
    freed := [], detached := [], head := 0, tail := 2, len := 2 }

/-- `c2AfterTake` after consumer B's complete `pop` (which wins the CAS but
finds the payload slot already emptied and returns `None`). -/
def c2AfterB : QState Nat :=
  { mem := [{ item := none, next := some 1 }, { item := none, next := some 2 },
            { item := some 2, next := none }],
    freed := [], detached := [0], head := 1, tail := 2, len := 1 }

/-- `c2AfterB` after consumer A's failed CAS, whose dropped
`next.into_owned()` deallocates node 1 — the live sentinel. -/
def c2AfterCasA : QState Nat :=
  { mem := [{ item := none, next := some 1 }, { item := none, next := some 2 },
            { item := some 2, next := none }],
    freed := [1], detached := [0], head := 1, tail := 2, len := 1 }

/-- Abstract transition for `LinkedQueue` call sequences (no `size`). -/
def lqAbsStep {α : Type u} (xs : List α) (k : Nat) : LqOp α → (List α × Nat) × QOut α
  | .push x => ((xs ++ [x], k), .ok)
  | .pop =>
    if k < xs.length then ((xs, k + 1), .popped xs[k]?) else ((xs, k), .popped none)
  | .is_empty => ((xs, k), .flag (xs.length - k == 0))

/-- Abstract run for `LinkedQueue` call sequences. -/
def lqAbsRun {α : Type u} : List α → Nat → List (LqOp α) → (List α × Nat) × List (QOut α)
  | xs, k, [] => ((xs, k), [])
  | xs, k, op :: ops =>
    let r := lqAbsStep xs k op
    let r' := lqAbsRun r.1.1 r.1.2 ops
    (r'.1, r.2 :: r'.2)

/-- Is this call a push? -/
def isPushOp {α : Type u} : QOp α → Bool
  | .push _ => true
  | _ => false

/-- Is this call a push? (`LinkedQueue` op alphabet) -/
def isPushLqOp {α : Type u} : LqOp α → Bool
  | .push _ => true
  | _ => false

/-- Did this call return a present payload? -/
def isSomePop {α : Type u} : QOut α → Bool
  | .popped (some _) => true
  | _ => false

/-! ## Lemmas about the canonical states -/

theorem canonMem_length {α : Type u} (xs : List α) (k : Nat) :
    (canonMem xs k).length = xs.length + 1 := by
  simp [canonMem]

theorem canonMem_getElem? {α : Type u} (xs : List α) (k j : Nat) :
    (canonMem xs k)[j]? =
      if j < xs.length + 1 then some (canonNodeAt xs k j) else none := by
  by_cases h : j < xs.length + 1
  · simp [canonMem, List.getElem?_map, List.getElem?_range h, h]
  · rw [List.getElem?_len_le]
    · simp [h]
    · simpa [canonMem_length] using Nat.le_of_not_lt h

theorem aliveRead_canonEp {α : Type u} (xs : List α) (k a : Nat) :
    aliveRead (canonEp xs k) a =
      if a < xs.length + 1 then some (canonNodeAt xs k a) else none := by
  simp [aliveRead, canonEp, canonMem_getElem?]

theorem aliveRead_canonLq {α : Type u} (xs : List α) (k a : Nat) (hk : k ≤ a) :
    aliveRead (canonLq xs k) a =
      if a < xs.length + 1 then some (canonNodeAt xs k a) else none := by
  have : a ∉ List.range k := by simp [List.mem_range]; omega
  simp [aliveRead, canonLq, canonMem_getElem?, this]

/-! ## Unfolding lemmas for the fueled loops -/

theorem linkLoop_of_next_none {α : Type u} (s : QState α) (p fuel a : Nat)
    {n : Node α} (h : aliveRead s a = some n) (hn : n.next = none) :
    linkLoop s p (fuel + 1) a = some (writeNode s a { n with next := some p }) := by
  simp [linkLoop, h, hn]

theorem linkLoop_of_next_some {α : Type u} (s : QState α) (p fuel a b : Nat)
    {n : Node α} (h : aliveRead s a = some n) (hn : n.next = some b) :
    linkLoop s p (fuel + 1) a =
      match walkToLast s (s.mem.length + 1) b with
      | none => none
      | some last => linkLoop s p fuel last := by
  simp [linkLoop, h, hn]

theorem walkToLast_of_next_none {α : Type u} (s : QState α) (fuel a : Nat)
    {n : Node α} (h : aliveRead s a = some n) (hn : n.next = none) :
    walkToLast s (fuel + 1) a = some a := by
  simp [walkToLast, h, hn]

theorem walkToLast_of_next_some {α : Type u} (s : QState α) (fuel a b : Nat)
    {n : Node α} (h : aliveRead s a = some n) (hn : n.next = some b) :
    walkToLast s (fuel + 1) a = walkToLast s fuel b := by
  simp [walkToLast, h, hn]

theorem canonMem_link {α : Type u} (xs : List α) (k : Nat) (x : α) (hk : k ≤ xs.length) :
    (canonMem xs k ++ ([{ item := some x, next := none }] : List (Node α))).set xs.length
        { canonNodeAt xs k xs.length with next := some (xs.length + 1) } =
      canonMem (xs ++ [x]) k := by
  apply List.ext_getElem?
  intro j
  simp only [List.getElem?_set, List.getElem?_append, List.length_append, canonMem_length,
    List.length_cons, List.length_nil, Nat.zero_add, canonMem_getElem?]
  rcases Nat.lt_trichotomy j xs.length with hj | hj | hj
  · rw [if_neg (show ¬(xs.length = j) by omega), if_pos (show j < xs.length + 1 by omega),
      if_pos (show j < xs.length + 1 by omega), if_pos (show j < xs.length + 1 + 1 by omega)]
    simp only [canonNodeAt, List.getElem?_append, Option.some.injEq, Node.mk.injEq]
    constructor
    · by_cases hke : j ≤ k
      · simp [hke]
      · simp [hke, if_pos (show j - 1 < xs.length by omega)]
    · rw [if_pos hj, if_pos (show j < (xs ++ [x]).length by simp; omega)]
  · subst hj
    rw [if_pos rfl, if_pos (show xs.length < xs.length + 1 + 1 by omega),
      if_pos (show xs.length < xs.length + 1 + 1 by omega)]
    simp only [canonNodeAt, List.getElem?_append, List.length_append, List.length_cons,
      List.length_nil, Nat.zero_add, Option.some.injEq, Node.mk.injEq,
      if_neg (show ¬(xs.length < xs.length) by omega),
      if_pos (show xs.length < xs.length + 1 by omega)]
    constructor
    · by_cases hke : xs.length ≤ k
      · simp [hke]
      · rw [if_neg hke, if_neg hke, if_pos (show xs.length - 1 < xs.length by omega)]
    · trivial
  · rw [if_neg (show ¬(xs.length = j) by omega), if_neg (show ¬(j < xs.length + 1) by omega)]
    by_cases hj4 : j = xs.length + 1
    · subst hj4
      rw [if_pos (show xs.length + 1 < xs.length + 1 + 1 by omega)]
      have hsub : xs.length + 1 - (xs.length + 1) = 0 := by omega
      rw [hsub]
      simp only [List.getElem?_cons_zero, canonNodeAt, Option.some.injEq, Node.mk.injEq]
      constructor
      · rw [if_neg (show ¬(xs.length + 1 ≤ k) by omega)]
        rw [show xs.length + 1 - 1 = xs.length by omega, List.getElem?_concat_length]
      · rw [if_neg (show ¬(xs.length + 1 < (xs ++ [x]).length) by simp)]
    · rw [if_neg (show ¬(j < xs.length + 1 + 1) by omega),
        List.getElem?_len_le (show List.length [({ item := some x, next := none } : Node α)] ≤ j - (xs.length + 1) by simp; omega)]

theorem canonMem_take {α : Type u} (xs : List α) (k : Nat) :
    (canonMem xs k).set (k + 1) { canonNodeAt xs k (k + 1) with item := none } =
      canonMem xs (k + 1) := by
  apply List.ext_getElem?
  intro j
  simp only [List.getElem?_set, canonMem_length, canonMem_getElem?]
  by_cases hj : k + 1 = j
  · subst hj
    by_cases hb : k + 1 < xs.length + 1
    · rw [if_pos rfl, if_pos hb, if_pos hb]
      simp [canonNodeAt]
    · rw [if_pos rfl, if_neg hb, if_neg hb]
  · rw [if_neg hj]
    by_cases hb : j < xs.length + 1
    · rw [if_pos hb, if_pos hb]
      simp only [canonNodeAt, Option.some.injEq, Node.mk.injEq]
      constructor
      · by_cases hjk : j ≤ k
        · rw [if_pos hjk, if_pos (show j ≤ k + 1 by omega)]
        · rw [if_neg hjk, if_neg (show ¬(j ≤ k + 1) by omega)]
      · trivial
    · rw [if_neg hb, if_neg hb]

theorem enqueueStruct_canon {α : Type u} (xs : List α) (k : Nat) (x : α) (s : QState α)
    (hmem : s.mem = canonMem xs k) (htail : s.tail = xs.length)
    (hfr : xs.length ∉ s.freed) (hk : k ≤ xs.length) :
    LinkedQueue.enqueueStruct s x =
      some { s with mem := canonMem (xs ++ [x]) k, tail := xs.length + 1 } := by
  have hlen : s.mem.length = xs.length + 1 := by rw [hmem, canonMem_length]
  have hread : aliveRead { s with mem := s.mem ++ [({ item := some x, next := none } : Node α)] }
      xs.length = some (canonNodeAt xs k xs.length) := by
    simp only [aliveRead]
    rw [if_neg hfr, hmem, List.getElem?_append]
    rw [if_pos (by rw [canonMem_length]; omega), canonMem_getElem?, if_pos (by omega)]
  have hnone : (canonNodeAt xs k xs.length).next = none := by
    simp [canonNodeAt]
  unfold LinkedQueue.enqueueStruct
  simp only [allocNode]
  rw [← htail] at hread hnone
  rw [linkLoop_of_next_none _ _ _ _ hread hnone]
  dsimp only [writeNode]
  rw [if_pos rfl]
  rw [htail] at hread hnone ⊢
  rw [hlen, hmem, canonMem_link xs k x hk]

theorem popRead_of_next_some {α : Type u} (s : QState α) {hn : Node α} {nx : Nat}
    (h : aliveRead s s.head = some hn) (hnx : hn.next = some nx) :
    popRead s = some (some { head := s.head, next := nx }) := by
  simp [popRead, h, hnx]

theorem popRead_of_next_none {α : Type u} (s : QState α) {hn : Node α}
    (h : aliveRead s s.head = some hn) (hnx : hn.next = none) :
    popRead s = some none := by
  simp [popRead, h, hnx]

theorem hePushLoop_of_next_none {α : Type u} (s : QState α) (p fuel : Nat)
    {n : Node α} (h : aliveRead s s.tail = some n) (hn : n.next = none) :
    HeQueue.pushLoop p (fuel + 1) s =
      some (writeNode s s.tail { n with next := some p }, s.tail) := by
  simp [HeQueue.pushLoop, h, hn]

theorem hePushLoop_of_next_some {α : Type u} (s : QState α) (p fuel : Nat)
    {n : Node α} {b : Nat} (h : aliveRead s s.tail = some n) (hn : n.next = some b) :
    HeQueue.pushLoop p (fuel + 1) s = HeQueue.pushLoop p fuel { s with tail := b } := by
  simp [HeQueue.pushLoop, h, hn]

theorem hePushStruct_canon {α : Type u} (xs : List α) (k : Nat) (x : α) (s : QState α)
    (hmem : s.mem = canonMem xs k) (htail : s.tail = xs.length)
    (hfr : xs.length ∉ s.freed) (hk : k ≤ xs.length) :
    HeQueue.pushStruct s x =
      some { s with mem := canonMem (xs ++ [x]) k, tail := xs.length + 1 } := by
  have hlen : s.mem.length = xs.length + 1 := by rw [hmem, canonMem_length]
  have hread : aliveRead { s with mem := s.mem ++ [({ item := some x, next := none } : Node α)] }
      xs.length = some (canonNodeAt xs k xs.length) := by
    simp only [aliveRead]
    rw [if_neg hfr, hmem, List.getElem?_append]
    rw [if_pos (by rw [canonMem_length]; omega), canonMem_getElem?, if_pos (by omega)]
  have hnone : (canonNodeAt xs k xs.length).next = none := by
    simp [canonNodeAt]
  unfold HeQueue.pushStruct
  simp only [allocNode]
  rw [← htail] at hread hnone
  rw [hePushLoop_of_next_none _ _ _ hread hnone]
  dsimp only [writeNode]
  rw [if_pos rfl]
  rw [htail] at hread hnone ⊢
  rw [hlen, hmem, canonMem_link xs k x hk]

theorem crsPush_canonEp {α : Type u} (xs : List α) (k : Nat) (x : α) (hk : k ≤ xs.length) :
    CrsQueue.push (canonEp xs k) x = some (canonEp (xs ++ [x]) k) := by
  unfold CrsQueue.push CrsQueue.pushStruct
  rw [enqueueStruct_canon xs k x _ rfl rfl (by simp [canonEp]) hk]
  simp only [Option.map_some', Option.some.injEq]
  simp only [canonEp, QState.mk.injEq, List.length_append, List.length_cons, List.length_nil,
    true_and, and_true]
  omega

theorem hePush_canonEp {α : Type u} (xs : List α) (k : Nat) (x : α) (hk : k ≤ xs.length) :
    HeQueue.push (canonEp xs k) x = some (canonEp (xs ++ [x]) k) := by
  unfold HeQueue.push
  rw [hePushStruct_canon xs k x _ rfl rfl (by simp [canonEp]) hk]
  simp only [Option.map_some', Option.some.injEq]
  simp only [canonEp, QState.mk.injEq, List.length_append, List.length_cons, List.length_nil,
    true_and, and_true]
  omega

theorem lqEnqueue_canonLq {α : Type u} (xs : List α) (k : Nat) (x : α) (hk : k ≤ xs.length) :
    LinkedQueue.enqueue (canonLq xs k) x = some (canonLq (xs ++ [x]) k) := by
  unfold LinkedQueue.enqueue
  rw [enqueueStruct_canon xs k x _ rfl rfl (by simp [canonLq, List.mem_range]; omega) hk]
  simp only [Option.map_some', Option.some.injEq]
  simp only [canonLq, QState.mk.injEq, List.length_append, List.length_cons, List.length_nil,
    true_and, and_true]
  omega

theorem crsPopLoop_of_cas_ok {α : Type u} (s : QState α) (fuel : Nat) {o : PopObs}
    {s1 : QState α} {data : Option α}
    (hR : popRead s = some (some o))
    (hT : CrsQueue.popTake s o = some (s1, data))
    (hC : s1.head = o.head) :
    CrsQueue.popLoop s (fuel + 1) =
      some (.broke { s1 with head := o.next, detached := s1.detached ++ [o.head] } data) := by
  simp [CrsQueue.popLoop, hR, hT, CrsQueue.popCas, hC]

theorem crsPopLoop_of_empty {α : Type u} (s : QState α) (fuel : Nat)
    (hR : popRead s = some none) :
    CrsQueue.popLoop s (fuel + 1) = some (.empty s) := by
  simp [CrsQueue.popLoop, hR]

theorem hePopLoop_of_cas_ok {α : Type u} (s : QState α) (fuel : Nat) {o : PopObs}
    {nn : Node α}
    (hR : popRead s = some (some o))
    (hC : s.head = o.head)
    (hA : aliveRead { s with head := o.next } o.next = some nn) :
    HeQueue.popLoop s (fuel + 1) =
      some (.broke
        { writeNode { s with head := o.next } o.next { nn with item := none } with
            detached := s.detached ++ [o.head] }
        nn.item) := by
  simp [HeQueue.popLoop, hR, HeQueue.popCas, hC, hA, writeNode]

theorem hePopLoop_of_empty {α : Type u} (s : QState α) (fuel : Nat)
    (hR : popRead s = some none) :
    HeQueue.popLoop s (fuel + 1) = some (.empty s) := by
  simp [HeQueue.popLoop, hR]

theorem crsPop_canonEp_some {α : Type u} (xs : List α) (k : Nat) (hk : k < xs.length) :
    CrsQueue.pop (canonEp xs k) = some (canonEp xs (k + 1), xs[k]?) := by
  have hread : aliveRead (canonEp xs k) (canonEp xs k).head = some (canonNodeAt xs k k) := by
    rw [show (canonEp xs k).head = k from rfl, aliveRead_canonEp, if_pos (by omega)]
  have hnx : (canonNodeAt xs k k).next = some (k + 1) := by
    simp [canonNodeAt]; omega
  have hR := popRead_of_next_some (canonEp xs k) hread hnx
  have hread2 : aliveRead (canonEp xs k) (k + 1) = some (canonNodeAt xs k (k + 1)) := by
    rw [aliveRead_canonEp, if_pos (by omega)]
  have hitem : (canonNodeAt xs k (k + 1)).item = xs[k]? := by
    simp [canonNodeAt]
  have hT : CrsQueue.popTake (canonEp xs k) { head := k, next := k + 1 } =
      some (writeNode (canonEp xs k) (k + 1) { canonNodeAt xs k (k + 1) with item := none },
        xs[k]?) := by
    simp only [CrsQueue.popTake, hread2, hitem]
  have hW : writeNode (canonEp xs k) (k + 1)
      { canonNodeAt xs k (k + 1) with item := none } =
      { canonEp xs k with mem := canonMem xs (k + 1) } := by
    simp only [writeNode, canonEp]
    rw [canonMem_take]
  rw [hW] at hT
  unfold CrsQueue.pop
  rw [if_neg (by simp [CrsQueue.is_empty, canonEp]; omega)]
  rw [show (canonEp xs k).mem.length = xs.length + 1 from canonMem_length xs k]
  rw [crsPopLoop_of_cas_ok _ _ hR hT rfl]
  simp only [Option.some.injEq, Prod.mk.injEq]
  constructor
  · simp only [canonEp, QState.mk.injEq, true_and, and_true, List.range_succ]
    omega
  · trivial

theorem aliveRead_mk_canonMem {α : Type u} (xs : List α) (k a : Nat) (fr de : List Nat)
    (hd tl ln : Nat) (hfr : a ∉ fr) (ha : a < xs.length + 1) :
    aliveRead ⟨canonMem xs k, fr, de, hd, tl, ln⟩ a = some (canonNodeAt xs k a) := by
  simp [aliveRead, hfr, canonMem_getElem?, ha]

theorem hePop_canonEp_some {α : Type u} (xs : List α) (k : Nat) (hk : k < xs.length) :
    HeQueue.pop (canonEp xs k) = some (canonEp xs (k + 1), xs[k]?) := by
  have hread : aliveRead (canonEp xs k) (canonEp xs k).head = some (canonNodeAt xs k k) := by
    rw [show (canonEp xs k).head = k from rfl, aliveRead_canonEp, if_pos (by omega)]
  have hnx : (canonNodeAt xs k k).next = some (k + 1) := by
    simp [canonNodeAt]; omega
  have hR := popRead_of_next_some (canonEp xs k) hread hnx
  have hA : aliveRead { canonEp xs k with head := k + 1 } (k + 1) =
      some (canonNodeAt xs k (k + 1)) := by
    show aliveRead ⟨canonMem xs k, [], List.range k, k + 1, xs.length, xs.length - k⟩ (k + 1) = _
    exact aliveRead_mk_canonMem xs k (k + 1) _ _ _ _ _ (by simp) (by omega)
  unfold HeQueue.pop
  rw [if_neg (by simp [HeQueue.is_empty, canonEp]; omega)]
  rw [show (canonEp xs k).mem.length = xs.length + 1 from canonMem_length xs k]
  rw [hePopLoop_of_cas_ok _ _ hR rfl hA]
  simp only [Option.some.injEq, Prod.mk.injEq]
  constructor
  · simp only [writeNode, canonEp, QState.mk.injEq, true_and, and_true, List.range_succ,
      canonMem_take]
    omega
  · simp [canonNodeAt]

theorem lqDequeue_canonLq_some {α : Type u} (xs : List α) (k : Nat) (hk : k < xs.length) :
    LinkedQueue.dequeue (canonLq xs k) = some (canonLq xs (k + 1), xs[k]?) := by
  show LinkedQueue.dequeue ⟨canonMem xs k, List.range k, [], k, xs.length, xs.length - k⟩ =
    some (canonLq xs (k + 1), xs[k]?)
  unfold LinkedQueue.dequeue
  rw [if_neg (by simp; omega)]
  dsimp only
  rw [aliveRead_mk_canonMem xs k k _ _ _ _ _ (by simp [List.mem_range]) (by omega)]
  dsimp only
  rw [show (canonNodeAt xs k k).next = some (k + 1) by simp [canonNodeAt]; omega]
  dsimp only
  rw [aliveRead_mk_canonMem xs k (k + 1) _ _ _ _ _
    (by simp [List.mem_append, List.mem_range]) (by omega)]
  dsimp only
  simp only [writeNode, canonLq, Option.some.injEq, Prod.mk.injEq, QState.mk.injEq,
    true_and, and_true, List.range_succ, canonMem_take]
  refine ⟨by omega, by simp [canonNodeAt]⟩

theorem crsPop_canonEp_empty {α : Type u} (xs : List α) :
    CrsQueue.pop (canonEp xs xs.length) = some (canonEp xs xs.length, none) := by
  unfold CrsQueue.pop
  rw [if_pos (by simp [CrsQueue.is_empty, canonEp])]

theorem hePop_canonEp_empty {α : Type u} (xs : List α) :
    HeQueue.pop (canonEp xs xs.length) = some (canonEp xs xs.length, none) := by
  unfold HeQueue.pop
  rw [if_pos (by simp [HeQueue.is_empty, canonEp])]

theorem lqDequeue_canonLq_empty {α : Type u} (xs : List α) :
    LinkedQueue.dequeue (canonLq xs xs.length) = some (canonLq xs xs.length, none) := by
  unfold LinkedQueue.dequeue
  rw [if_pos (by simp [canonLq])]

theorem crsNew_eq_canonEp {α : Type u} : CrsQueue.new α = canonEp [] 0 := rfl

theorem heNew_eq_canonEp {α : Type u} : HeQueue.new α = canonEp [] 0 := rfl

theorem lqNew_eq_canonLq {α : Type u} : LinkedQueue.new α = canonLq [] 0 := rfl

theorem crsStep_canon {α : Type u} (xs : List α) (k : Nat) (hk : k ≤ xs.length) (op : QOp α) :
    crsStep (canonEp xs k) op =
      some (canonEp (absStep xs k op).1.1 (absStep xs k op).1.2, (absStep xs k op).2) := by
  cases op with
  | push x =>
    simp only [crsStep, absStep, crsPush_canonEp xs k x hk, Option.map_some']
  | pop =>
    by_cases h : k < xs.length
    · simp only [crsStep, absStep, if_pos h, crsPop_canonEp_some xs k h, Option.map_some']
    · have hkk : k = xs.length := by omega
      subst hkk
      simp only [crsStep, absStep, if_neg h, crsPop_canonEp_empty xs, Option.map_some']
  | size =>
    simp only [crsStep, absStep, CrsQueue.size, canonEp]
  | is_empty =>
    simp only [crsStep, absStep, CrsQueue.is_empty, canonEp]

theorem heStep_canon {α : Type u} (xs : List α) (k : Nat) (hk : k ≤ xs.length) (op : QOp α) :
    heStep (canonEp xs k) op =
      some (canonEp (absStep xs k op).1.1 (absStep xs k op).1.2, (absStep xs k op).2) := by
  cases op with
  | push x =>
    simp only [heStep, absStep, hePush_canonEp xs k x hk, Option.map_some']
  | pop =>
    by_cases h : k < xs.length
    · simp only [heStep, absStep, if_pos h, hePop_canonEp_some xs k h, Option.map_some']
    · have hkk : k = xs.length := by omega
      subst hkk
      simp only [heStep, absStep, if_neg h, hePop_canonEp_empty xs, Option.map_some']
  | size =>
    simp only [heStep, absStep, HeQueue.size, canonEp]
  | is_empty =>
    simp only [heStep, absStep, HeQueue.is_empty, canonEp]

theorem absStep_le {α : Type u} (xs : List α) (k : Nat) (hk : k ≤ xs.length) (op : QOp α) :
    (absStep xs k op).1.2 ≤ (absStep xs k op).1.1.length := by
  cases op with
  | push x => simp [absStep]; omega
  | pop =>
    by_cases h : k < xs.length
    · simp [absStep, if_pos h]; omega
    · simp [absStep, if_neg h]; omega
  | size => simpa [absStep] using hk
  | is_empty => simpa [absStep] using hk

theorem crsRun_canon {α : Type u} (ops : List (QOp α)) :
    ∀ (xs : List α) (k : Nat), k ≤ xs.length →
      crsRun (canonEp xs k) ops =
        some (canonEp (absRun xs k ops).1.1 (absRun xs k ops).1.2, (absRun xs k ops).2) := by
  induction ops with
  | nil => intro xs k _; simp [crsRun, absRun]
  | cons op ops ih =>
    intro xs k hk
    rw [show crsRun (canonEp xs k) (op :: ops) =
      (match crsStep (canonEp xs k) op with
      | none => none
      | some (s', out) =>
        match crsRun s' ops with
        | none => none
        | some (s'', outs) => some (s'', out :: outs)) from rfl]
    rw [crsStep_canon xs k hk op]
    dsimp only
    rw [ih (absStep xs k op).1.1 (absStep xs k op).1.2 (absStep_le xs k hk op)]
    simp [absRun]

theorem heRun_canon {α : Type u} (ops : List (QOp α)) :
    ∀ (xs : List α) (k : Nat), k ≤ xs.length →
      heRun (canonEp xs k) ops =
        some (canonEp (absRun xs k ops).1.1 (absRun xs k ops).1.2, (absRun xs k ops).2) := by
  induction ops with
  | nil => intro xs k _; simp [heRun, absRun]
  | cons op ops ih =>
    intro xs k hk
    rw [show heRun (canonEp xs k) (op :: ops) =
      (match heStep (canonEp xs k) op with
      | none => none
      | some (s', out) =>
        match heRun s' ops with
        | none => none
        | some (s'', outs) => some (s'', out :: outs)) from rfl]
    rw [heStep_canon xs k hk op]
    dsimp only
    rw [ih (absStep xs k op).1.1 (absStep xs k op).1.2 (absStep_le xs k hk op)]
    simp [absRun]

theorem lqStep_canon {α : Type u} (xs : List α) (k : Nat) (hk : k ≤ xs.length) (op : LqOp α) :
    lqStep (canonLq xs k) op =
      some (canonLq (lqAbsStep xs k op).1.1 (lqAbsStep xs k op).1.2, (lqAbsStep xs k op).2) := by
  cases op with
  | push x =>
    simp only [lqStep, lqAbsStep, lqEnqueue_canonLq xs k x hk, Option.map_some']
  | pop =>
    by_cases h : k < xs.length
    · simp only [lqStep, lqAbsStep, if_pos h, lqDequeue_canonLq_some xs k h, Option.map_some']
    · have hkk : k = xs.length := by omega
      subst hkk
      simp only [lqStep, lqAbsStep, if_neg h, lqDequeue_canonLq_empty xs, Option.map_some']
  | is_empty =>
    simp only [lqStep, lqAbsStep, LinkedQueue.is_empty, canonLq]

theorem lqAbsStep_le {α : Type u} (xs : List α) (k : Nat) (hk : k ≤ xs.length) (op : LqOp α) :
    (lqAbsStep xs k op).1.2 ≤ (lqAbsStep xs k op).1.1.length := by
  cases op with
  | push x => simp [lqAbsStep]; omega
  | pop =>
    by_cases h : k < xs.length
    · simp [lqAbsStep, if_pos h]; omega
    · simp [lqAbsStep, if_neg h]; omega
  | is_empty => simpa [lqAbsStep] using hk

theorem lqRun_canon {α : Type u} (ops : List (LqOp α)) :
    ∀ (xs : List α) (k : Nat), k ≤ xs.length →
      lqRun (canonLq xs k) ops =
        some (canonLq (lqAbsRun xs k ops).1.1 (lqAbsRun xs k ops).1.2, (lqAbsRun xs k ops).2) := by
  induction ops with
  | nil => intro xs k _; simp [lqRun, lqAbsRun]
  | cons op ops ih =>
    intro xs k hk
    rw [show lqRun (canonLq xs k) (op :: ops) =
      (match lqStep (canonLq xs k) op with
      | none => none
      | some (s', out) =>
        match lqRun s' ops with
        | none => none
        | some (s'', outs) => some (s'', out :: outs)) from rfl]
    rw [lqStep_canon xs k hk op]
    dsimp only
    rw [ih (lqAbsStep xs k op).1.1 (lqAbsStep xs k op).1.2 (lqAbsStep_le xs k hk op)]
    simp [lqAbsRun]

theorem pushAll_crs_canonEp {α : Type u} (ys : List α) :
    ∀ (xs : List α) (k : Nat), k ≤ xs.length →
      pushAll CrsQueue.push (canonEp xs k) ys = some (canonEp (xs ++ ys) k) := by
  induction ys with
  | nil => intro xs k _; simp [pushAll]
  | cons y ys ih =>
    intro xs k hk
    rw [show pushAll CrsQueue.push (canonEp xs k) (y :: ys) =
      (match CrsQueue.push (canonEp xs k) y with
      | none => none
      | some s' => pushAll CrsQueue.push s' ys) from rfl]
    rw [crsPush_canonEp xs k y hk]
    dsimp only
    rw [ih (xs ++ [y]) k (by simp; omega)]
    simp

theorem pushAll_he_canonEp {α : Type u} (ys : List α) :
    ∀ (xs : List α) (k : Nat), k ≤ xs.length →
      pushAll HeQueue.push (canonEp xs k) ys = some (canonEp (xs ++ ys) k) := by
  induction ys with
  | nil => intro xs k _; simp [pushAll]
  | cons y ys ih =>
    intro xs k hk
    rw [show pushAll HeQueue.push (canonEp xs k) (y :: ys) =
      (match HeQueue.push (canonEp xs k) y with
      | none => none
      | some s' => pushAll HeQueue.push s' ys) from rfl]
    rw [hePush_canonEp xs k y hk]
    dsimp only
    rw [ih (xs ++ [y]) k (by simp; omega)]
    simp

theorem pushAll_lq_canonLq {α : Type u} (ys : List α) :
    ∀ (xs : List α) (k : Nat), k ≤ xs.length →
      pushAll LinkedQueue.enqueue (canonLq xs k) ys = some (canonLq (xs ++ ys) k) := by
  induction ys with
  | nil => intro xs k _; simp [pushAll]
  | cons y ys ih =>
    intro xs k hk
    rw [show pushAll LinkedQueue.enqueue (canonLq xs k) (y :: ys) =
      (match LinkedQueue.enqueue (canonLq xs k) y with
      | none => none
      | some s' => pushAll LinkedQueue.enqueue s' ys) from rfl]
    rw [lqEnqueue_canonLq xs k y hk]
    dsimp only
    rw [ih (xs ++ [y]) k (by simp; omega)]
    simp

theorem popN_crs_canonEp {α : Type u} (n : Nat) :
    ∀ (xs : List α) (k : Nat), k + n ≤ xs.length →
      popN CrsQueue.pop (canonEp xs k) n =
        some (canonEp xs (k + n), ((xs.drop k).take n).map some) := by
  induction n with
  | zero => intro xs k _; simp [popN]
  | succ n ih =>
    intro xs k hn
    rw [show popN CrsQueue.pop (canonEp xs k) (n + 1) =
      (match CrsQueue.pop (canonEp xs k) with
      | none => none
      | some (s', v) =>
        match popN CrsQueue.pop s' n with
        | none => none
        | some (s'', vs) => some (s'', v :: vs)) from rfl]
    rw [crsPop_canonEp_some xs k (by omega)]
    dsimp only
    rw [ih xs (k + 1) (by omega)]
    dsimp only
    rw [List.drop_eq_getElem_cons (show k < xs.length by omega)]
    simp only [List.take_succ_cons, List.map_cons, List.getElem?_eq_getElem
      (show k < xs.length by omega)]
    rw [show k + 1 + n = k + (n + 1) by omega]

theorem popN_he_canonEp {α : Type u} (n : Nat) :
    ∀ (xs : List α) (k : Nat), k + n ≤ xs.length →
      popN HeQueue.pop (canonEp xs k) n =
        some (canonEp xs (k + n), ((xs.drop k).take n).map some) := by
  induction n with
  | zero => intro xs k _; simp [popN]
  | succ n ih =>
    intro xs k hn
    rw [show popN HeQueue.pop (canonEp xs k) (n + 1) =
      (match HeQueue.pop (canonEp xs k) with
      | none => none
      | some (s', v) =>
        match popN HeQueue.pop s' n with
        | none => none
        | some (s'', vs) => some (s'', v :: vs)) from rfl]
    rw [hePop_canonEp_some xs k (by omega)]
    dsimp only
    rw [ih xs (k + 1) (by omega)]
    dsimp only
    rw [List.drop_eq_getElem_cons (show k < xs.length by omega)]
    simp only [List.take_succ_cons, List.map_cons, List.getElem?_eq_getElem
      (show k < xs.length by omega)]
    rw [show k + 1 + n = k + (n + 1) by omega]

theorem popN_lq_canonLq {α : Type u} (n : Nat) :
    ∀ (xs : List α) (k : Nat), k + n ≤ xs.length →
      popN LinkedQueue.dequeue (canonLq xs k) n =
        some (canonLq xs (k + n), ((xs.drop k).take n).map some) := by
  induction n with
  | zero => intro xs k _; simp [popN]
  | succ n ih =>
    intro xs k hn
    rw [show popN LinkedQueue.dequeue (canonLq xs k) (n + 1) =
      (match LinkedQueue.dequeue (canonLq xs k) with
      | none => none
      | some (s', v) =>
        match popN LinkedQueue.dequeue s' n with
        | none => none
        | some (s'', vs) => some (s'', v :: vs)) from rfl]
    rw [lqDequeue_canonLq_some xs k (by omega)]
    dsimp only
    rw [ih xs (k + 1) (by omega)]
    dsimp only
    rw [List.drop_eq_getElem_cons (show k < xs.length by omega)]
    simp only [List.take_succ_cons, List.map_cons, List.getElem?_eq_getElem
      (show k < xs.length by omega)]
    rw [show k + 1 + n = k + (n + 1) by omega]

theorem lockFoldPush_inner {α : Type u} (xs : List α) :
    ∀ (q : LockQueue α), (xs.foldl LockQueue.push q).inner = q.inner ++ xs := by
  induction xs with
  | nil => intro q; simp
  | cons x xs ih =>
    intro q
    rw [List.foldl_cons, ih]
    simp [LockQueue.push]

theorem lockPopN_all {α : Type u} (xs : List α) :
    lockPopN (⟨xs⟩ : LockQueue α) xs.length = (⟨[]⟩, xs.map some) := by
  induction xs with
  | nil => simp [lockPopN]
  | cons x xs ih =>
    rw [show (x :: xs).length = xs.length + 1 from rfl]
    rw [show lockPopN (⟨x :: xs⟩ : LockQueue α) (xs.length + 1) =
      (let r := LockQueue.pop ⟨x :: xs⟩
       let r' := lockPopN r.1 xs.length
       (r'.1, r.2 :: r'.2)) from rfl]
    simp [LockQueue.pop, ih]

theorem absRun_stats {α : Type u} (ops : List (QOp α)) :
    ∀ (xs : List α) (k : Nat), k ≤ xs.length →
      (absRun xs k ops).1.1.length = xs.length + ops.countP isPushOp ∧
      (absRun xs k ops).1.2 = k + (absRun xs k ops).2.countP isSomePop := by
  induction ops with
  | nil => intro xs k _; simp [absRun]
  | cons op ops ih =>
    intro xs k hk
    have step := ih (absStep xs k op).1.1 (absStep xs k op).1.2 (absStep_le xs k hk op)
    cases op with
    | push x =>
      simp only [absRun, absStep] at step ⊢
      rw [List.countP_cons, List.countP_cons,
        show isPushOp (QOp.push x : QOp α) = true from rfl,
        show isSomePop (QOut.ok : QOut α) = false from rfl]
      simp only [List.length_append, List.length_cons, List.length_nil] at step
      constructor
      · rw [step.1]; simp; omega
      · rw [step.2]; simp
    | pop =>
      by_cases h : k < xs.length
      · simp only [absRun, absStep, if_pos h] at step ⊢
        rw [List.countP_cons, List.countP_cons, List.getElem?_eq_getElem h,
          show isPushOp (QOp.pop : QOp α) = false from rfl,
          show isSomePop (QOut.popped (some xs[k])) = true from rfl]
        constructor
        · rw [step.1]; simp
        · rw [step.2]; simp; omega
      · simp only [absRun, absStep, if_neg h] at step ⊢
        rw [List.countP_cons, List.countP_cons,
          show isPushOp (QOp.pop : QOp α) = false from rfl,
          show isSomePop (QOut.popped (none : Option α)) = false from rfl]
        constructor
        · rw [step.1]; simp
        · rw [step.2]; simp
    | size =>
      simp only [absRun, absStep] at step ⊢
      rw [List.countP_cons, List.countP_cons,
        show isPushOp (QOp.size : QOp α) = false from rfl,
        show isSomePop (QOut.count (xs.length - k) : QOut α) = false from rfl]
      constructor
      · rw [step.1]; simp
      · rw [step.2]; simp
    | is_empty =>
      simp only [absRun, absStep] at step ⊢
      rw [List.countP_cons, List.countP_cons,
        show isPushOp (QOp.is_empty : QOp α) = false from rfl,
        show isSomePop (QOut.flag (xs.length - k == 0) : QOut α) = false from rfl]
      constructor
      · rw [step.1]; simp
      · rw [step.2]; simp

theorem lqAbsRun_stats {α : Type u} (ops : List (LqOp α)) :
    ∀ (xs : List α) (k : Nat), k ≤ xs.length →
      (lqAbsRun xs k ops).1.1.length = xs.length + ops.countP isPushLqOp ∧
      (lqAbsRun xs k ops).1.2 = k + (lqAbsRun xs k ops).2.countP isSomePop := by
  induction ops with
  | nil => intro xs k _; simp [lqAbsRun]
  | cons op ops ih =>
    intro xs k hk
    have step := ih (lqAbsStep xs k op).1.1 (lqAbsStep xs k op).1.2 (lqAbsStep_le xs k hk op)
    cases op with
    | push x =>
      simp only [lqAbsRun, lqAbsStep] at step ⊢
      rw [List.countP_cons, List.countP_cons,
        show isPushLqOp (LqOp.push x : LqOp α) = true from rfl,
        show isSomePop (QOut.ok : QOut α) = false from rfl]
      simp only [List.length_append, List.length_cons, List.length_nil] at step
      constructor
      · rw [step.1]; simp; omega
      · rw [step.2]; simp
    | pop =>
      by_cases h : k < xs.length
      · simp only [lqAbsRun, lqAbsStep, if_pos h] at step ⊢
        rw [List.countP_cons, List.countP_cons, List.getElem?_eq_getElem h,
          show isPushLqOp (LqOp.pop : LqOp α) = false from rfl,
          show isSomePop (QOut.popped (some xs[k])) = true from rfl]
        constructor
        · rw [step.1]; simp
        · rw [step.2]; simp; omega
      · simp only [lqAbsRun, lqAbsStep, if_neg h] at step ⊢
        rw [List.countP_cons, List.countP_cons,
          show isPushLqOp (LqOp.pop : LqOp α) = false from rfl,
          show isSomePop (QOut.popped (none : Option α)) = false from rfl]
        constructor
        · rw [step.1]; simp
        · rw [step.2]; simp
    | is_empty =>
      simp only [lqAbsRun, lqAbsStep] at step ⊢
      rw [List.countP_cons, List.countP_cons,
        show isPushLqOp (LqOp.is_empty : LqOp α) = false from rfl,
        show isSomePop (QOut.flag (xs.length - k == 0) : QOut α) = false from rfl]
      constructor
      · rw [step.1]; simp
      · rw [step.2]; simp

theorem linkLoop_fields {α : Type u} (s : QState α) (p : Nat) :
    ∀ (fuel a : Nat) (s' : QState α), linkLoop s p fuel a = some s' →
      s'.head = s.head ∧ s'.tail = s.tail ∧ s'.len = s.len ∧
      s'.freed = s.freed ∧ s'.detached = s.detached := by
  intro fuel
  induction fuel with
  | zero => intro a s' h; simp [linkLoop] at h
  | succ fuel ih =>
    intro a s' h
    cases hA : aliveRead s a with
    | none => simp [linkLoop, hA] at h
    | some n =>
      cases hN : n.next with
      | none =>
        simp only [linkLoop, hA, hN, Option.some.injEq] at h
        subst h
        simp [writeNode]
      | some b =>
        cases hW : walkToLast s (s.mem.length + 1) b with
        | none => simp [linkLoop, hA, hN, hW] at h
        | some last =>
          simp only [linkLoop, hA, hN, hW] at h
          exact ih last s' h

theorem hePushLoop_fields {α : Type u} (p : Nat) :
    ∀ (fuel : Nat) (s s' : QState α) (tl : Nat),
      HeQueue.pushLoop p fuel s = some (s', tl) →
      s'.head = s.head ∧ s'.len = s.len ∧ s'.freed = s.freed ∧
      s'.detached = s.detached := by
  intro fuel
  induction fuel with
  | zero => intro s s' tl h; simp [HeQueue.pushLoop] at h
  | succ fuel ih =>
    intro s s' tl h
    cases hA : aliveRead s s.tail with
    | none => simp [HeQueue.pushLoop, hA] at h
    | some n =>
      cases hN : n.next with
      | none =>
        simp only [HeQueue.pushLoop, hA, hN, Option.some.injEq, Prod.mk.injEq] at h
        rw [← h.1]
        simp [writeNode]
      | some b =>
        simp only [HeQueue.pushLoop, hA, hN] at h
        exact ih { s with tail := b } s' tl h

theorem crsPopLoop_fields {α : Type u} :
    ∀ (fuel : Nat) (s : QState α) (out : PopOutcome α),
      CrsQueue.popLoop s fuel = some out →
      (match out with
       | .empty s1 => s1.tail = s.tail ∧ s1.len = s.len
       | .broke s1 _ => s1.tail = s.tail ∧ s1.len = s.len) := by
  intro fuel
  induction fuel with
  | zero => intro s out h; simp [CrsQueue.popLoop] at h
  | succ fuel ih =>
    intro s out h
    cases hR : popRead s with
    | none => simp [CrsQueue.popLoop, hR] at h
    | some oOpt =>
      cases oOpt with
      | none =>
        simp only [CrsQueue.popLoop, hR, Option.some.injEq] at h
        subst h
        exact ⟨rfl, rfl⟩
      | some o =>
        cases hT : CrsQueue.popTake s o with
        | none => simp [CrsQueue.popLoop, hR, hT] at h
        | some r =>
          have hfields : r.1.tail = s.tail ∧ r.1.len = s.len := by
            unfold CrsQueue.popTake at hT
            cases hA : aliveRead s o.next with
            | none => rw [hA] at hT; simp at hT
            | some nn =>
              rw [hA] at hT
              simp only [Option.some.injEq] at hT
              rw [← hT]
              simp [writeNode]
          simp only [CrsQueue.popLoop, hR, hT] at h
          by_cases hc : r.1.head = o.head
          · simp only [CrsQueue.popCas, if_pos hc, if_true] at h
            simp only [Option.some.injEq] at h
            subst h
            exact ⟨hfields.1, hfields.2⟩
          · simp only [CrsQueue.popCas, if_neg hc, if_false] at h
            have := ih { r.1 with freed := r.1.freed ++ [o.next] } out h
            cases out with
            | empty s1 => exact ⟨this.1.trans hfields.1, this.2.trans hfields.2⟩
            | broke s1 d => exact ⟨this.1.trans hfields.1, this.2.trans hfields.2⟩

theorem hePopLoop_fields {α : Type u} :
    ∀ (fuel : Nat) (s : QState α) (out : PopOutcome α),
      HeQueue.popLoop s fuel = some out →
      (match out with
       | .empty s1 => s1.tail = s.tail ∧ s1.len = s.len
       | .broke s1 _ => s1.tail = s.tail ∧ s1.len = s.len) := by
  intro fuel
  induction fuel with
  | zero => intro s out h; simp [HeQueue.popLoop] at h
  | succ fuel ih =>
    intro s out h
    cases hR : popRead s with
    | none => simp [HeQueue.popLoop, hR] at h
    | some oOpt =>
      cases oOpt with
      | none =>
        simp only [HeQueue.popLoop, hR, Option.some.injEq] at h
        subst h
        exact ⟨rfl, rfl⟩
      | some o =>
        by_cases hc : s.head = o.head
        · simp only [HeQueue.popLoop, hR, HeQueue.popCas, if_pos hc, if_true] at h
          cases hA : aliveRead { s with head := o.next } o.next with
          | none => rw [hA] at h; simp at h
          | some nn =>
            rw [hA] at h
            simp only [Option.some.injEq] at h
            subst h
            simp [writeNode]
        · simp only [HeQueue.popLoop, hR, HeQueue.popCas, if_neg hc, if_false] at h
          exact ih s out h

theorem enqueueStruct_frame {α : Type u} (s : QState α) (x : α) (s' : QState α)
    (h : LinkedQueue.enqueueStruct s x = some s') :
    s'.head = s.head ∧ s'.len = s.len ∧ s'.freed = s.freed ∧ s'.detached = s.detached := by
  unfold LinkedQueue.enqueueStruct at h
  dsimp only [allocNode] at h
  split at h
  · exact absurd h (by simp)
  next s2 hL =>
    simp only [Option.some.injEq] at h
    subst h
    have hf := linkLoop_fields _ _ _ _ _ hL
    by_cases ht : s2.tail = s.tail
    · rw [if_pos ht]
      exact ⟨hf.1, hf.2.2.1, hf.2.2.2.1, hf.2.2.2.2⟩
    · rw [if_neg ht]
      exact ⟨hf.1, hf.2.2.1, hf.2.2.2.1, hf.2.2.2.2⟩

theorem hePushStruct_frame {α : Type u} (s : QState α) (x : α) (s' : QState α)
    (h : HeQueue.pushStruct s x = some s') :
    s'.head = s.head ∧ s'.len = s.len ∧ s'.freed = s.freed ∧ s'.detached = s.detached := by
  unfold HeQueue.pushStruct at h
  dsimp only [allocNode] at h
  split at h
  · exact absurd h (by simp)
  next s2 tl hL =>
    simp only [Option.some.injEq] at h
    subst h
    have hf := hePushLoop_fields _ _ _ _ _ hL
    by_cases ht : s2.tail = tl
    · rw [if_pos ht]
      exact ⟨hf.1, hf.2.1, hf.2.2.1, hf.2.2.2⟩
    · rw [if_neg ht]
      exact ⟨hf.1, hf.2.1, hf.2.2.1, hf.2.2.2⟩

theorem crsPop_tail {α : Type u} (s s' : QState α) (r : Option α)
    (h : CrsQueue.pop s = some (s', r)) : s'.tail = s.tail := by
  unfold CrsQueue.pop at h
  split at h
  · simp only [Option.some.injEq, Prod.mk.injEq] at h
    rw [← h.1]
  · split at h
    · exact absurd h (by simp)
    next s1 heq =>
      simp only [Option.some.injEq, Prod.mk.injEq] at h
      rw [← h.1]
      exact (crsPopLoop_fields _ s _ heq).1
    next s1 data heq =>
      simp only [Option.some.injEq, Prod.mk.injEq] at h
      rw [← h.1]
      exact (crsPopLoop_fields _ s _ heq).1

theorem hePop_tail {α : Type u} (s s' : QState α) (r : Option α)
    (h : HeQueue.pop s = some (s', r)) : s'.tail = s.tail := by
  unfold HeQueue.pop at h
  split at h
  · simp only [Option.some.injEq, Prod.mk.injEq] at h
    rw [← h.1]
  · split at h
    · exact absurd h (by simp)
    next s1 heq =>
      simp only [Option.some.injEq, Prod.mk.injEq] at h
      rw [← h.1]
      exact (hePopLoop_fields _ s _ heq).1
    next s1 data heq =>
      simp only [Option.some.injEq, Prod.mk.injEq] at h
      rw [← h.1]
      exact (hePopLoop_fields _ s _ heq).1

theorem lqDequeue_tail {α : Type u} (s s' : QState α) (r : Option α)
    (h : LinkedQueue.dequeue s = some (s', r)) : s'.tail = s.tail := by
  unfold LinkedQueue.dequeue at h
  split at h
  · simp only [Option.some.injEq, Prod.mk.injEq] at h
    rw [← h.1]
  · split at h
    · exact absurd h (by simp)
    next hn hA =>
      split at h
      · exact absurd h (by simp)
      next nx hN =>
        dsimp only at h
        split at h
        · exact absurd h (by simp)
        next nn hA2 =>
          simp only [Option.some.injEq, Prod.mk.injEq] at h
          rw [← h.1]
          rfl

theorem crs_fifo {α : Type u} (xs : List α) :
    (pushAll CrsQueue.push (CrsQueue.new α) xs).bind
      (fun s => (popN CrsQueue.pop s xs.length).map Prod.snd) = some (xs.map some) := by
  rw [crsNew_eq_canonEp, pushAll_crs_canonEp xs [] 0 (by simp)]
  simp only [List.nil_append, Option.bind_some, Option.some_bind]
  rw [popN_crs_canonEp xs.length xs 0 (by omega)]
  simp

theorem he_fifo {α : Type u} (xs : List α) :
    (pushAll HeQueue.push (HeQueue.new α) xs).bind
      (fun s => (popN HeQueue.pop s xs.length).map Prod.snd) = some (xs.map some) := by
  rw [heNew_eq_canonEp, pushAll_he_canonEp xs [] 0 (by simp)]
  simp only [List.nil_append, Option.bind_some, Option.some_bind]
  rw [popN_he_canonEp xs.length xs 0 (by omega)]
  simp

theorem lq_fifo {α : Type u} (xs : List α) :
    (pushAll LinkedQueue.enqueue (LinkedQueue.new α) xs).bind
      (fun s => (popN LinkedQueue.dequeue s xs.length).map Prod.snd) = some (xs.map some) := by
  rw [lqNew_eq_canonLq, pushAll_lq_canonLq xs [] 0 (by simp)]
  simp only [List.nil_append, Option.bind_some, Option.some_bind]
  rw [popN_lq_canonLq xs.length xs 0 (by omega)]
  simp

theorem lock_fifo {α : Type u} (xs : List α) :
    (lockPopN (xs.foldl LockQueue.push (LockQueue.new α)) xs.length).2 = xs.map some := by
  have h : xs.foldl LockQueue.push (LockQueue.new α) = (⟨xs⟩ : LockQueue α) := by
    have := lockFoldPush_inner xs (LockQueue.new α)
    cases hq : xs.foldl LockQueue.push (LockQueue.new α) with
    | mk inner =>
      rw [hq] at this
      simp only [LockQueue.new, List.nil_append] at this
      rw [this]
  rw [h, lockPopN_all]

/-- Claim C1: FIFO delivery: for every variant (LinkedQueue, LockQueue,
CrsQueue, HeQueue), items are dequeued in exactly the order their nodes were
linked into the chain (in the sequential embedding, the order they were
pushed): pushing any list of items onto a fresh queue and popping them all
yields exactly that list in order; in particular pushing [1,1,4,5,1,4] and
popping six times yields [1,1,4,5,1,4]. -/
theorem claim_C1_fifo :
    (∀ (α : Type u) (xs : List α),
      (pushAll CrsQueue.push (CrsQueue.new α) xs).bind
        (fun s => (popN CrsQueue.pop s xs.length).map Prod.snd) = some (xs.map some)) ∧
    (∀ (α : Type u) (xs : List α),
      (pushAll HeQueue.push (HeQueue.new α) xs).bind
        (fun s => (popN HeQueue.pop s xs.length).map Prod.snd) = some (xs.map some)) ∧
    (∀ (α : Type u) (xs : List α),
      (pushAll LinkedQueue.enqueue (LinkedQueue.new α) xs).bind
        (fun s => (popN LinkedQueue.dequeue s xs.length).map Prod.snd) = some (xs.map some)) ∧
    (∀ (α : Type u) (xs : List α),
      (lockPopN (xs.foldl LockQueue.push (LockQueue.new α)) xs.length).2 = xs.map some) ∧
    ((pushAll CrsQueue.push (CrsQueue.new Nat) [1, 1, 4, 5, 1, 4]).bind
        (fun s => (popN CrsQueue.pop s 6).map Prod.snd) =
      some [some 1, some 1, some 4, some 5, some 1, some 4]) ∧
    ((pushAll HeQueue.push (HeQueue.new Nat) [1, 1, 4, 5, 1, 4]).bind
        (fun s => (popN HeQueue.pop s 6).map Prod.snd) =
      some [some 1, some 1, some 4, some 5, some 1, some 4]) ∧
    ((pushAll LinkedQueue.enqueue (LinkedQueue.new Nat) [1, 1, 4, 5, 1, 4]).bind
        (fun s => (popN LinkedQueue.dequeue s 6).map Prod.snd) =
      some [some 1, some 1, some 4, some 5, some 1, some 4]) ∧
    ((lockPopN ([1, 1, 4, 5, 1, 4].foldl LockQueue.push (LockQueue.new Nat)) 6).2 =
      [some 1, some 1, some 4, some 5, some 1, some 4]) :=
  ⟨fun _ xs => crs_fifo xs, fun _ xs => he_fifo xs, fun _ xs => lq_fifo xs,
   fun _ xs => lock_fifo xs,
   by decide, by decide, by decide, by decide⟩

/-- Claim C6: the two epoch-reclaimed push-repair flavors are externally
indistinguishable: every sequence of push/pop/size/is_empty calls run from a
fresh queue returns identical results on `HeQueue` and `CrsQueue` (and both
runs complete). -/
theorem claim_C6_flavors_equal :
    ∀ (α : Type u) (ops : List (QOp α)),
      crsRun (CrsQueue.new α) ops = heRun (HeQueue.new α) ops ∧
      (crsRun (CrsQueue.new α) ops).isSome = true := by
  intro α ops
  rw [crsNew_eq_canonEp, heNew_eq_canonEp,
    crsRun_canon ops [] 0 (by simp), heRun_canon ops [] 0 (by simp)]
  exact ⟨rfl, rfl⟩

/-- Claim C7, counterexample: the three variants do NOT expose the identical
public surface new()/push(item)/pop()/size()/is_empty(): `LinkedQueue` names
its operations `enqueue`/`dequeue` and has no `size()`, and `LockQueue` has
no `size()` either. -/
theorem claim_C7_counterexample :
    linkedQueueMethods ≠ crsQueueMethods ∧
    lockQueueMethods ≠ crsQueueMethods ∧
    "size" ∉ linkedQueueMethods ∧
    "size" ∉ lockQueueMethods ∧
    "push" ∉ linkedQueueMethods ∧
    "pop" ∉ linkedQueueMethods := by
  decide

/-- Claim C7, amended: only the two epoch variants share the full surface
new()/push/pop/size/is_empty (plus a debug `walk`); `LinkedQueue` offers
new()/enqueue/dequeue/is_empty (no size), `LockQueue` offers
new()/push/pop/is_empty (no size).  Where `size` exists it returns the
advisory counter, and each lock-free variant's `is_empty` is true exactly
when the advisory counter reads zero (`LockQueue.is_empty` instead tests the
guarded list itself). -/
theorem claim_C7_amended :
    crsQueueMethods = heQueueMethods ∧
    "size" ∈ crsQueueMethods ∧
    (∀ (α : Type u) (s : QState α), CrsQueue.size s = s.len) ∧
    (∀ (α : Type u) (s : QState α), HeQueue.size s = s.len) ∧
    (∀ (α : Type u) (s : QState α), (CrsQueue.is_empty s = true ↔ s.len = 0)) ∧
    (∀ (α : Type u) (s : QState α), (HeQueue.is_empty s = true ↔ s.len = 0)) ∧
    (∀ (α : Type u) (s : QState α), (LinkedQueue.is_empty s = true ↔ s.len = 0)) ∧
    (∀ (α : Type u) (q : LockQueue α), (LockQueue.is_empty q = true ↔ q.inner = [])) := by
  refine ⟨rfl, by decide, fun α s => rfl, fun α s => rfl, ?_, ?_, ?_, ?_⟩
  · intro α s
    simp [CrsQueue.is_empty]
  · intro α s
    simp [HeQueue.is_empty]
  · intro α s
    simp [LinkedQueue.is_empty]
  · intro α q
    simp [LockQueue.is_empty, List.isEmpty_iff]

/-- Claim C8, counterexample: the claim's "size() returns 0 on a freshly
constructed queue of any variant" has no referent on two of the variants:
neither `LinkedQueue` nor `LockQueue` provides a `size` operation at all
(and `LockQueue::new` builds a plain empty list, with no sentinel node and
no length counter). -/
theorem claim_C8_counterexample :
    "size" ∉ linkedQueueMethods ∧ "size" ∉ lockQueueMethods ∧
    (LockQueue.new Nat).inner = [] := by
  decide

/-- Claim C8, amended: on a freshly constructed queue, pop returns
"no element" and leaves the state unchanged and is_empty is true, for every
variant; size() returns 0 on the two variants that have it (CrsQueue,
HeQueue); the lock-free variants' new() holds exactly one node — an empty
sentinel — and length 0. -/
theorem claim_C8_fresh :
    (∀ (α : Type u), CrsQueue.pop (CrsQueue.new α) = some (CrsQueue.new α, none)) ∧
    (∀ (α : Type u), CrsQueue.is_empty (CrsQueue.new α) = true) ∧
    (∀ (α : Type u), CrsQueue.size (CrsQueue.new α) = 0) ∧
    (∀ (α : Type u), HeQueue.pop (HeQueue.new α) = some (HeQueue.new α, none)) ∧
    (∀ (α : Type u), HeQueue.is_empty (HeQueue.new α) = true) ∧
    (∀ (α : Type u), HeQueue.size (HeQueue.new α) = 0) ∧
    (∀ (α : Type u), LinkedQueue.dequeue (LinkedQueue.new α) = some (LinkedQueue.new α, none)) ∧
    (∀ (α : Type u), LinkedQueue.is_empty (LinkedQueue.new α) = true) ∧
    (∀ (α : Type u), LockQueue.pop (LockQueue.new α) = (LockQueue.new α, none)) ∧
    (∀ (α : Type u), LockQueue.is_empty (LockQueue.new α) = true) ∧
    (∀ (α : Type u), (CrsQueue.new α).mem = [{ item := none, next := none }] ∧
      (CrsQueue.new α).len = 0) ∧
    (∀ (α : Type u), (HeQueue.new α).mem = [{ item := none, next := none }] ∧
      (HeQueue.new α).len = 0) ∧
    (∀ (α : Type u), (LinkedQueue.new α).mem = [{ item := none, next := none }] ∧
      (LinkedQueue.new α).len = 0) :=
  ⟨fun _ => rfl, fun _ => rfl, fun _ => rfl, fun _ => rfl, fun _ => rfl, fun _ => rfl,
   fun _ => rfl, fun _ => rfl, fun _ => rfl, fun _ => rfl,
   fun _ => ⟨rfl, rfl⟩, fun _ => ⟨rfl, rfl⟩, fun _ => ⟨rfl, rfl⟩⟩

/-- Claim C10: frame property of the lock-free variants: push never modifies
the head reference, and pop never modifies the tail reference. -/
theorem claim_C10_frame :
    (∀ (α : Type u) (s s' : QState α) (x : α),
      LinkedQueue.enqueue s x = some s' → s'.head = s.head) ∧
    (∀ (α : Type u) (s s' : QState α) (r : Option α),
      LinkedQueue.dequeue s = some (s', r) → s'.tail = s.tail) ∧
    (∀ (α : Type u) (s s' : QState α) (x : α),
      CrsQueue.push s x = some s' → s'.head = s.head) ∧
    (∀ (α : Type u) (s s' : QState α) (r : Option α),
      CrsQueue.pop s = some (s', r) → s'.tail = s.tail) ∧
    (∀ (α : Type u) (s s' : QState α) (x : α),
      HeQueue.push s x = some s' → s'.head = s.head) ∧
    (∀ (α : Type u) (s s' : QState α) (r : Option α),
      HeQueue.pop s = some (s', r) → s'.tail = s.tail) := by
  refine ⟨?_, ?_, ?_, ?_, ?_, ?_⟩
  · intro α s s' x h
    unfold LinkedQueue.enqueue at h
    cases hS : LinkedQueue.enqueueStruct s x with
    | none => rw [hS] at h; simp at h
    | some s2 =>
      rw [hS] at h
      simp only [Option.map_some', Option.some.injEq] at h
      subst h
      exact (enqueueStruct_frame s x s2 hS).1
  · intro α s s' r h
    exact lqDequeue_tail s s' r h
  · intro α s s' x h
    unfold CrsQueue.push CrsQueue.pushStruct at h
    cases hS : LinkedQueue.enqueueStruct s x with
    | none => rw [hS] at h; simp at h
    | some s2 =>
      rw [hS] at h
      simp only [Option.map_some', Option.some.injEq] at h
      subst h
      exact (enqueueStruct_frame s x s2 hS).1
  · intro α s s' r h
    exact crsPop_tail s s' r h
  · intro α s s' x h
    unfold HeQueue.push at h
    cases hS : HeQueue.pushStruct s x with
    | none => rw [hS] at h; simp at h
    | some s2 =>
      rw [hS] at h
      simp only [Option.map_some', Option.some.injEq] at h
      subst h
      exact (hePushStruct_frame s x s2 hS).1
  · intro α s s' r h
    exact hePop_tail s s' r h

/-- Claim C4: advisory length counter correctness: at the end of every
completed call sequence from a fresh queue, the counter equals the number of
pushes minus the number of pops that returned a value; the structural phase
of push leaves the counter untouched (the increment happens only after the
link), and the pop loop leaves the counter untouched (the decrement happens
only after a successful detach). -/
theorem claim_C4_counter :
    (∀ (α : Type u) (ops : List (QOp α)), ∃ (s : QState α) (outs : List (QOut α)),
      crsRun (CrsQueue.new α) ops = some (s, outs) ∧
      s.len = ops.countP isPushOp - outs.countP isSomePop) ∧
    (∀ (α : Type u) (ops : List (QOp α)), ∃ (s : QState α) (outs : List (QOut α)),
      heRun (HeQueue.new α) ops = some (s, outs) ∧
      s.len = ops.countP isPushOp - outs.countP isSomePop) ∧
    (∀ (α : Type u) (ops : List (LqOp α)), ∃ (s : QState α) (outs : List (QOut α)),
      lqRun (LinkedQueue.new α) ops = some (s, outs) ∧
      s.len = ops.countP isPushLqOp - outs.countP isSomePop) ∧
    (∀ (α : Type u) (s s' : QState α) (x : α),
      LinkedQueue.enqueueStruct s x = some s' → s'.len = s.len) ∧
    (∀ (α : Type u) (s s' : QState α) (x : α),
      CrsQueue.pushStruct s x = some s' → s'.len = s.len) ∧
    (∀ (α : Type u) (s s' : QState α) (x : α),
      HeQueue.pushStruct s x = some s' → s'.len = s.len) ∧
    (∀ (α : Type u) (s : QState α) (fuel : Nat) (out : PopOutcome α),
      CrsQueue.popLoop s fuel = some out →
      (match out with
       | .empty s1 => s1.len = s.len
       | .broke s1 _ => s1.len = s.len)) ∧
    (∀ (α : Type u) (s : QState α) (fuel : Nat) (out : PopOutcome α),
      HeQueue.popLoop s fuel = some out →
      (match out with
       | .empty s1 => s1.len = s.len
       | .broke s1 _ => s1.len = s.len)) := by
  refine ⟨?_, ?_, ?_, ?_, ?_, ?_, ?_, ?_⟩
  · intro α ops
    rw [crsNew_eq_canonEp, crsRun_canon ops [] 0 (by simp)]
    refine ⟨_, _, rfl, ?_⟩
    have hs := absRun_stats ops [] 0 (by simp)
    simp only [canonEp, List.length_nil, Nat.zero_add] at hs ⊢
    omega
  · intro α ops
    rw [heNew_eq_canonEp, heRun_canon ops [] 0 (by simp)]
    refine ⟨_, _, rfl, ?_⟩
    have hs := absRun_stats ops [] 0 (by simp)
    simp only [canonEp, List.length_nil, Nat.zero_add] at hs ⊢
    omega
  · intro α ops
    rw [lqNew_eq_canonLq, lqRun_canon ops [] 0 (by simp)]
    refine ⟨_, _, rfl, ?_⟩
    have hs := lqAbsRun_stats ops [] 0 (by simp)
    simp only [canonLq, List.length_nil, Nat.zero_add] at hs ⊢
    omega
  · intro α s s' x h
    exact (enqueueStruct_frame s x s' h).2.1
  · intro α s s' x h
    exact (enqueueStruct_frame s x s' h).2.1
  · intro α s s' x h
    exact (hePushStruct_frame s x s' h).2.1
  · intro α s fuel out h
    have := crsPopLoop_fields fuel s out h
    cases out with
    | empty s1 => exact this.2
    | broke s1 d => exact this.2
  · intro α s fuel out h
    have := hePopLoop_fields fuel s out h
    cases out with
    | empty s1 => exact this.2
    | broke s1 d => exact this.2

/-- Witness for C10 at concrete inputs: a push onto the fresh queue and a pop
from the one-element queue of each lock-free variant. -/
theorem claim_C10_frame_witness :
    (canonLq ([7] : List Nat) 0).head = (canonLq ([] : List Nat) 0).head ∧
    (canonLq ([7] : List Nat) 1).tail = (canonLq ([7] : List Nat) 0).tail ∧
    (canonEp ([7] : List Nat) 0).head = (canonEp ([] : List Nat) 0).head ∧
    (canonEp ([7] : List Nat) 1).tail = (canonEp ([7] : List Nat) 0).tail ∧
    (canonEp ([9] : List Nat) 0).head = (canonEp ([] : List Nat) 0).head ∧
    (canonEp ([9] : List Nat) 1).tail = (canonEp ([9] : List Nat) 0).tail :=
  ⟨claim_C10_frame.1 Nat (canonLq [] 0) (canonLq [7] 0) 7 (by decide),
   claim_C10_frame.2.1 Nat (canonLq [7] 0) (canonLq [7] 1) (some 7) (by decide),
   claim_C10_frame.2.2.1 Nat (canonEp [] 0) (canonEp [7] 0) 7 (by decide),
   claim_C10_frame.2.2.2.1 Nat (canonEp [7] 0) (canonEp [7] 1) (some 7) (by decide),
   claim_C10_frame.2.2.2.2.1 Nat (canonEp [] 0) (canonEp [9] 0) 9 (by decide),
   claim_C10_frame.2.2.2.2.2 Nat (canonEp [9] 0) (canonEp [9] 1) (some 9) (by decide)⟩

/-- Witness for C4 at concrete inputs: the structural phases of the three
pushes and the two pop loops, run on one-element queues, leave the counter
unchanged. -/
theorem claim_C4_counter_witness :
    (⟨[{ item := none, next := some 1 }, { item := some 7, next := none }],
        [], [], 0, 1, 0⟩ : QState Nat).len = (canonLq ([] : List Nat) 0).len ∧
    (⟨[{ item := none, next := some 1 }, { item := some 8, next := none }],
        [], [], 0, 1, 0⟩ : QState Nat).len = (canonEp ([] : List Nat) 0).len ∧
    (⟨[{ item := none, next := some 1 }, { item := some 9, next := none }],
        [], [], 0, 1, 0⟩ : QState Nat).len = (canonEp ([] : List Nat) 0).len ∧
    (⟨[{ item := none, next := some 1 }, { item := none, next := none }],
        [], [0], 1, 1, 1⟩ : QState Nat).len = (canonEp ([7] : List Nat) 0).len ∧
    (⟨[{ item := none, next := some 1 }, { item := none, next := none }],
        [], [0], 1, 1, 1⟩ : QState Nat).len = (canonEp ([8] : List Nat) 0).len :=
  ⟨claim_C4_counter.2.2.2.1 Nat (canonLq [] 0) _ 7 (by decide),
   claim_C4_counter.2.2.2.2.1 Nat (canonEp [] 0) _ 8 (by decide),
   claim_C4_counter.2.2.2.2.2.1 Nat (canonEp [] 0) _ 9 (by decide),
   claim_C4_counter.2.2.2.2.2.2.1 Nat (canonEp [7] 0) 2
     (.broke ⟨[{ item := none, next := some 1 }, { item := none, next := none }],
        [], [0], 1, 1, 1⟩ (some 7)) (by decide),
   claim_C4_counter.2.2.2.2.2.2.2 Nat (canonEp [8] 0) 2
     (.broke ⟨[{ item := none, next := some 1 }, { item := none, next := none }],
        [], [0], 1, 1, 1⟩ (some 8)) (by decide)⟩

/-- Claim C2 (code bug in `CrsQueue::pop`, `crs_queue.rs` 122-123): the
payload is taken BEFORE the head-advance CAS, so a pop attempt whose CAS
fails has already emptied the successor's payload slot.  Replaying the
two-consumer schedule on the queue holding [1, 2]: consumer A reads and
takes payload 1; consumer B then runs a complete pop, wins the CAS and
returns `none`; A's CAS fails (also deallocating the still-linked node via
the dropped `next.into_owned()`), and A's retry dereferences the freed
sentinel (undefined behavior).  Payload 1 is never delivered by any pop.
`HeQueue::pop` (`he_queue.rs` 118-123) extracts only after a winning CAS, as
the spec describes; its failed CAS leaves the state unchanged. -/
theorem claim_C2_crs_take_before_cas :
    popRead c2Init = some (some { head := 0, next := 1 }) ∧
    CrsQueue.popTake c2Init { head := 0, next := 1 } = some (c2AfterTake, some 1) ∧
    c2AfterTake.mem[1]? = some { item := none, next := some 2 } ∧
    CrsQueue.pop c2AfterTake = some (c2AfterB, none) ∧
    CrsQueue.popCas c2AfterB { head := 0, next := 1 } = (c2AfterCasA, false) ∧
    c2AfterCasA.freed = [1] ∧
    CrsQueue.popLoop c2AfterCasA (c2AfterCasA.mem.length + 1) = none ∧
    (∀ n ∈ c2AfterB.mem, n.item ≠ some 1) ∧
    HeQueue.popCas c2AfterB { head := 0, next := 1 } = (c2AfterB, false) := by
  decide

/-- Claim C3, counterexample: `LinkedQueue::dequeue` (`lq.rs` 106-127) has no
structural re-validation after the advisory fast path: on the state with a
positive counter whose sentinel has no successor (reachable when another
consumer's dequeue has detached the last node but not yet decremented the
counter), it dereferences the null `next` (undefined behavior, outer `none`)
instead of returning "no element". -/
theorem claim_C3_counterexample :
    0 < lqBadState.len ∧
    (aliveRead lqBadState lqBadState.head).map Node.next = some none ∧
    LinkedQueue.dequeue lqBadState = none := by
  decide

/-- Claim C3, amended: in the epoch variants (`CrsQueue`, `HeQueue`) the
zero-length fast path is advisory only and emptiness is re-validated
structurally — whenever the head node's `next` is null, pop returns
"no element" without dereferencing a successor, whatever the counter says.
`LinkedQueue::dequeue` has no such structural re-validation: when the
counter is positive and the head's `next` is null it dereferences null, so
for that variant the counter is a correctness dependency. -/
theorem claim_C3_structural_revalidation :
    (∀ (α : Type u) (s : QState α) (n : Node α),
      aliveRead s s.head = some n → n.next = none →
      CrsQueue.pop s = some (s, none)) ∧
    (∀ (α : Type u) (s : QState α) (n : Node α),
      aliveRead s s.head = some n → n.next = none →
      HeQueue.pop s = some (s, none)) ∧
    (∀ (α : Type u) (s : QState α) (n : Node α),
      s.len ≠ 0 → aliveRead s s.head = some n → n.next = none →
      LinkedQueue.dequeue s = none) := by
  refine ⟨?_, ?_, ?_⟩
  · intro α s n hA hN
    unfold CrsQueue.pop
    by_cases he : CrsQueue.is_empty s = true
    · rw [if_pos he]
    · rw [if_neg he, crsPopLoop_of_empty s s.mem.length (popRead_of_next_none s hA hN)]
  · intro α s n hA hN
    unfold HeQueue.pop
    by_cases he : HeQueue.is_empty s = true
    · rw [if_pos he]
    · rw [if_neg he, hePopLoop_of_empty s s.mem.length (popRead_of_next_none s hA hN)]
  · intro α s n hl hA hN
    unfold LinkedQueue.dequeue
    rw [if_neg (by simpa using hl), hA]
    dsimp only
    rw [hN]

/-- Witness for the amended C3 at the concrete counter-positive, empty-chain
state: the epoch variants return "no element" there, `LinkedQueue` does not. -/
theorem claim_C3_structural_revalidation_witness :
    CrsQueue.pop lqBadState = some (lqBadState, none) ∧
    HeQueue.pop lqBadState = some (lqBadState, none) ∧
    LinkedQueue.dequeue lqBadState = none :=
  ⟨claim_C3_structural_revalidation.1 Nat lqBadState { item := none, next := none }
      (by decide) rfl,
   claim_C3_structural_revalidation.2.1 Nat lqBadState { item := none, next := none }
      (by decide) rfl,
   claim_C3_structural_revalidation.2.2 Nat lqBadState { item := none, next := none }
      (by decide) (by decide) rfl⟩

/-! ## Chain lemmas -/

theorem chainAux_nodeChain {α : Type u} (s : QState α) :
    ∀ (fuel a : Nat) (l : List Nat), chainAux s fuel a = some l → NodeChain s a l := by
  intro fuel
  induction fuel with
  | zero => intro a l h; simp [chainAux] at h
  | succ fuel ih =>
    intro a l h
    cases hA : aliveRead s a with
    | none => simp [chainAux, hA] at h
    | some n =>
      cases hN : n.next with
      | none =>
        simp only [chainAux, hA, hN, Option.some.injEq] at h
        subst h
        exact NodeChain.last hA hN
      | some b =>
        simp only [chainAux, hA, hN, Option.map_eq_some'] at h
        obtain ⟨t, ht, rfl⟩ := h
        exact NodeChain.cons hA hN (ih b t ht)

theorem nodeChain_chainAux {α : Type u} {s : QState α} {a : Nat} {l : List Nat}
    (h : NodeChain s a l) : ∀ fuel, l.length ≤ fuel → chainAux s fuel a = some l := by
  induction h with
  | last hA hN =>
    intro fuel hf
    cases fuel with
    | zero => simp at hf
    | succ fuel => simp [chainAux, hA, hN]
  | cons hA hN h ih =>
    intro fuel hf
    cases fuel with
    | zero => simp at hf
    | succ fuel =>
      simp only [chainAux, hA, hN, ih fuel (by simpa using Nat.le_of_succ_le_succ hf),
        Option.map_some']

theorem chainAux_length_le {α : Type u} (s : QState α) :
    ∀ (fuel a : Nat) (l : List Nat), chainAux s fuel a = some l → l.length ≤ fuel := by
  intro fuel
  induction fuel with
  | zero => intro a l h; simp [chainAux] at h
  | succ fuel ih =>
    intro a l h
    cases hA : aliveRead s a with
    | none => simp [chainAux, hA] at h
    | some n =>
      cases hN : n.next with
      | none =>
        simp only [chainAux, hA, hN, Option.some.injEq] at h
        subst h
        simp
      | some b =>
        simp only [chainAux, hA, hN, Option.map_eq_some'] at h
        obtain ⟨t, ht, rfl⟩ := h
        have := ih b t ht
        simp
        omega

theorem nodeChain_ne_nil {α : Type u} {s : QState α} {a : Nat} {l : List Nat}
    (h : NodeChain s a l) : l ≠ [] := by
  cases h <;> simp

theorem nodeChain_head {α : Type u} {s : QState α} {a : Nat} {l : List Nat}
    (h : NodeChain s a l) : l.head? = some a := by
  cases h <;> rfl

theorem nodeChain_mem_lt {α : Type u} {s : QState α} {a : Nat} {l : List Nat}
    (h : NodeChain s a l) : ∀ x ∈ l, x < s.mem.length ∧ x ∉ s.freed := by
  induction h with
  | last hA hN =>
    intro x hx
    simp at hx
    subst hx
    unfold aliveRead at hA
    by_cases hf : x ∈ s.freed
    · rw [if_pos hf] at hA; cases hA
    · rw [if_neg hf] at hA
      refine ⟨?_, hf⟩
      by_cases hlt : x < s.mem.length
      · exact hlt
      · rw [List.getElem?_len_le (by omega)] at hA; cases hA
  | cons hA hN h ih =>
    intro x hx
    rcases List.mem_cons.mp hx with rfl | hx'
    · unfold aliveRead at hA
      by_cases hf : x ∈ s.freed
      · rw [if_pos hf] at hA; cases hA
      · rw [if_neg hf] at hA
        refine ⟨?_, hf⟩
        by_cases hlt : x < s.mem.length
        · exact hlt
        · rw [List.getElem?_len_le (by omega)] at hA; cases hA
    · exact ih x hx'

theorem nodeChain_frame {α : Type u} {s s' : QState α} {a : Nat} {l : List Nat}
    (h : NodeChain s a l)
    (hf : ∀ x ∈ l, aliveRead s' x = aliveRead s x) : NodeChain s' a l := by
  induction h with
  | last hA hN =>
    exact NodeChain.last ((hf _ (by simp)).trans hA) hN
  | cons hA hN h ih =>
    exact NodeChain.cons ((hf _ (by simp)).trans hA) hN
      (ih fun x hx => hf x (by simp [hx]))

theorem getLastD_default_irrel {l : List Nat} (hl : l ≠ []) (d d' : Nat) :
    l.getLastD d = l.getLastD d' := by
  cases l with
  | nil => exact absurd rfl hl
  | cons x t => rw [List.getLastD_cons, List.getLastD_cons]

theorem nodeChain_suffix {α : Type u} {s : QState α} {a : Nat} {l : List Nat}
    (h : NodeChain s a l) :
    ∀ x ∈ l, ∃ l₂, NodeChain s x l₂ ∧ l₂.length ≤ l.length ∧
      l₂.getLastD 0 = l.getLastD 0 := by
  induction h with
  | last hA hN =>
    intro x hx
    simp at hx
    subst hx
    exact ⟨[x], NodeChain.last hA hN, by simp, rfl⟩
  | cons hA hN h ih =>
    intro x hx
    rcases List.mem_cons.mp hx with rfl | hx'
    · refine ⟨_, NodeChain.cons hA hN h, Nat.le_refl _, rfl⟩
    · obtain ⟨l₂, hc, hlen, hlast⟩ := ih x hx'
      refine ⟨l₂, hc, by simp; omega, ?_⟩
      rw [hlast, List.getLastD_cons]
      exact getLastD_default_irrel (nodeChain_ne_nil h) _ _

theorem nodeChain_last_node {α : Type u} {s : QState α} {a : Nat} {l : List Nat}
    (h : NodeChain s a l) :
    ∃ n : Node α, aliveRead s (l.getLastD 0) = some n ∧ n.next = none := by
  induction h with
  | last hA hN => exact ⟨_, hA, hN⟩
  | cons hA hN h ih =>
    obtain ⟨n', hn', hnn'⟩ := ih
    refine ⟨n', ?_, hnn'⟩
    rw [List.getLastD_cons, getLastD_default_irrel (nodeChain_ne_nil h) _ 0]
    exact hn'

theorem nodeChain_next_none_last {α : Type u} {s : QState α} {a : Nat} {l : List Nat}
    (h : NodeChain s a l) :
    ∀ z ∈ l, ∀ n : Node α, aliveRead s z = some n → n.next = none →
      z = l.getLastD 0 := by
  induction h with
  | last hA hN =>
    intro z hz n hzA hzN
    simp at hz
    subst hz
    rfl
  | cons hA hN h ih =>
    intro z hz n hzA hzN
    rcases List.mem_cons.mp hz with rfl | hz'
    · rw [hA] at hzA
      cases hzA
      rw [hN] at hzN
      cases hzN
    · rw [List.getLastD_cons, getLastD_default_irrel (nodeChain_ne_nil h) _ 0]
      exact ih z hz' n hzA hzN

theorem walkToLast_of_chain {α : Type u} {s : QState α} {a : Nat} {l : List Nat}
    (h : NodeChain s a l) :
    ∀ fuel, l.length ≤ fuel → walkToLast s fuel a = some (l.getLastD 0) := by
  induction h with
  | last hA hN =>
    intro fuel hf
    cases fuel with
    | zero => simp at hf
    | succ fuel => simp [walkToLast, hA, hN]
  | cons hA hN h ih =>
    intro fuel hf
    cases fuel with
    | zero => simp at hf
    | succ fuel =>
      rw [walkToLast_of_next_some s fuel _ _ hA hN,
        ih fuel (by simpa using Nat.le_of_succ_le_succ hf), List.getLastD_cons]
      exact congrArg some (getLastD_default_irrel (nodeChain_ne_nil h) 0 _)

theorem linkLoop_shape {α : Type u} (s : QState α) (p : Nat) :
    ∀ (fuel a : Nat) (s' : QState α), linkLoop s p fuel a = some s' →
      ∃ (z : Nat) (n : Node α), aliveRead s z = some n ∧ n.next = none ∧
        s' = writeNode s z { n with next := some p } := by
  intro fuel
  induction fuel with
  | zero => intro a s' h; simp [linkLoop] at h
  | succ fuel ih =>
    intro a s' h
    cases hA : aliveRead s a with
    | none => simp [linkLoop, hA] at h
    | some n =>
      cases hN : n.next with
      | none =>
        simp only [linkLoop, hA, hN, Option.some.injEq] at h
        exact ⟨a, n, hA, hN, h.symm⟩
      | some b =>
        cases hW : walkToLast s (s.mem.length + 1) b with
        | none => simp [linkLoop, hA, hN, hW] at h
        | some last =>
          simp only [linkLoop, hA, hN, hW] at h
          exact ih last s' h

theorem hePushLoop_shape {α : Type u} (p : Nat) :
    ∀ (fuel : Nat) (s s' : QState α) (tl : Nat),
      HeQueue.pushLoop p fuel s = some (s', tl) →
      ∃ n : Node α, aliveRead s tl = some n ∧ n.next = none ∧
        s' = writeNode { s with tail := tl } tl { n with next := some p } := by
  intro fuel
  induction fuel with
  | zero => intro s s' tl h; simp [HeQueue.pushLoop] at h
  | succ fuel ih =>
    intro s s' tl h
    cases hA : aliveRead s s.tail with
    | none => simp [HeQueue.pushLoop, hA] at h
    | some n =>
      cases hN : n.next with
      | none =>
        simp only [HeQueue.pushLoop, hA, hN, Option.some.injEq, Prod.mk.injEq] at h
        refine ⟨n, ?_, hN, ?_⟩
        · rw [← h.2]; exact hA
        · rw [← h.1, ← h.2]
      | some b =>
        simp only [HeQueue.pushLoop, hA, hN] at h
        obtain ⟨n', hA', hN', hE⟩ := ih { s with tail := b } s' tl h
        exact ⟨n', hA', hN', hE⟩

theorem linkLoop_of_chain {α : Type u} (s : QState α) (p : Nat) {a : Nat} {l₂ : List Nat}
    (h : NodeChain s a l₂) (hlen : l₂.length ≤ s.mem.length + 1) :
    ∀ fuel, 2 ≤ fuel →
      ∃ n : Node α, aliveRead s (l₂.getLastD 0) = some n ∧ n.next = none ∧
        linkLoop s p fuel a = some (writeNode s (l₂.getLastD 0) { n with next := some p }) := by
  intro fuel hfuel
  obtain ⟨f, rfl⟩ : ∃ f, fuel = f + 2 := ⟨fuel - 2, by omega⟩
  cases h with
  | last hA hN =>
    exact ⟨_, hA, hN, linkLoop_of_next_none s p (f + 1) a hA hN⟩
  | cons hA hN h' =>
    rename_i b n t
    obtain ⟨n', hA', hN'⟩ := nodeChain_last_node h'
    have hwalk : walkToLast s (s.mem.length + 1) b = some (t.getLastD 0) :=
      walkToLast_of_chain h' (s.mem.length + 1) (by simp at hlen; omega)
    have hgl : (a :: t).getLastD 0 = t.getLastD 0 := by
      rw [List.getLastD_cons]
      exact getLastD_default_irrel (nodeChain_ne_nil h') a 0
    refine ⟨n', by rwa [hgl], hN', ?_⟩
    rw [linkLoop_of_next_some s p (f + 1) a b hA hN, hwalk]
    rw [hgl]
    cases f with
    | zero => exact linkLoop_of_next_none s p 0 _ hA' hN'
    | succ f => exact linkLoop_of_next_none s p f.succ _ hA' hN'

theorem hePushLoop_some {α : Type u} (p : Nat) :
    ∀ (l₂ : List Nat) (s : QState α), NodeChain s s.tail l₂ →
      ∀ fuel, l₂.length ≤ fuel → (HeQueue.pushLoop p fuel s).isSome = true := by
  intro l₂
  induction l₂ with
  | nil => intro s h fuel _; cases h
  | cons z t ih =>
    intro s h fuel hf
    cases fuel with
    | zero => simp at hf
    | succ fuel =>
      cases h with
      | last hA hN =>
        rw [hePushLoop_of_next_none s p fuel hA hN]
        rfl
      | cons hA hN h' =>
        rw [hePushLoop_of_next_some s p fuel hA hN]
        refine ih { s with tail := _ } ?_ fuel (by simpa using Nat.le_of_succ_le_succ hf)
        exact nodeChain_frame h' (fun x _ => rfl)

theorem alloc_frame_chain {α : Type u} {s : QState α} {a : Nat} {l : List Nat}
    (h : NodeChain s a l) (nn : Node α) :
    NodeChain { s with mem := s.mem ++ [nn] } a l := by
  refine nodeChain_frame h ?_
  intro x hx
  have hb := nodeChain_mem_lt h x hx
  simp [aliveRead, List.getElem?_append, hb.1]

/-- Claim C9: for every queue state satisfying the chain invariant with
`tail` referencing some chain node (the spec's §3 invariant, allowing tail
lag), push of each lock-free variant terminates successfully — the link-CAS
retry loop and the walk along the finite acyclic chain complete, and push
never returns failure. -/
theorem claim_C9_push_total :
    ∀ (α : Type u) (s : QState α) (l : List Nat) (x : α), PushInvL s l →
      (LinkedQueue.enqueue s x).isSome = true ∧
      (CrsQueue.push s x).isSome = true ∧
      (HeQueue.push s x).isSome = true := by
  intro α s l x hinv
  obtain ⟨⟨hchain, _, _, _, _, _, _⟩, htail⟩ := hinv
  have hch : NodeChain s s.head l := chainAux_nodeChain s _ _ _ hchain
  have hlenl : l.length ≤ s.mem.length + 1 := chainAux_length_le s _ _ _ hchain
  obtain ⟨l₂, hc2, hlen2, _⟩ := nodeChain_suffix hch s.tail htail
  have hstruct : (LinkedQueue.enqueueStruct s x).isSome = true := by
    have hc2' : NodeChain { s with mem := s.mem ++ [({ item := some x, next := none } : Node α)] }
        s.tail l₂ := alloc_frame_chain hc2 _
    obtain ⟨n, _, _, hlink⟩ := linkLoop_of_chain _ s.mem.length hc2'
      (by simp; omega) ((s.mem ++ [({ item := some x, next := none } : Node α)]).length + 1)
      (by simp)
    unfold LinkedQueue.enqueueStruct
    dsimp only [allocNode]
    rw [hlink]
    rfl
  have hhe : (HeQueue.pushStruct s x).isSome = true := by
    have hc2' : NodeChain { s with mem := s.mem ++ [({ item := some x, next := none } : Node α)] }
        s.tail l₂ := alloc_frame_chain hc2 _
    have := hePushLoop_some s.mem.length l₂
      { s with mem := s.mem ++ [({ item := some x, next := none } : Node α)] }
      hc2' ((s.mem ++ [({ item := some x, next := none } : Node α)]).length + 1)
      (by simp; omega)
    unfold HeQueue.pushStruct
    dsimp only [allocNode]
    cases hP : HeQueue.pushLoop s.mem.length
        ((s.mem ++ [({ item := some x, next := none } : Node α)]).length + 1)
        { s with mem := s.mem ++ [({ item := some x, next := none } : Node α)] } with
    | none => rw [hP] at this; simp at this
    | some r =>
      obtain ⟨s2, tl⟩ := r
      rfl
  refine ⟨?_, ?_, ?_⟩
  · unfold LinkedQueue.enqueue
    cases hS : LinkedQueue.enqueueStruct s x with
    | none => rw [hS] at hstruct; simp at hstruct
    | some s2 => rfl
  · unfold CrsQueue.push CrsQueue.pushStruct
    cases hS : LinkedQueue.enqueueStruct s x with
    | none => rw [hS] at hstruct; simp at hstruct
    | some s2 => rfl
  · unfold HeQueue.push
    cases hS : HeQueue.pushStruct s x with
    | none => rw [hS] at hhe; simp at hhe
    | some s2 => rfl

/-- Witness for C9 at a concrete invariant-satisfying state whose `tail`
lags one node behind the true last node, so the pushes must actually walk. -/
theorem claim_C9_push_total_witness :
    (LinkedQueue.enqueue
      (⟨[{ item := none, next := some 1 }, { item := some 7, next := some 2 },
         { item := some 8, next := none }], [], [], 0, 1, 2⟩ : QState Nat) 9).isSome = true ∧
    (CrsQueue.push
      (⟨[{ item := none, next := some 1 }, { item := some 7, next := some 2 },
         { item := some 8, next := none }], [], [], 0, 1, 2⟩ : QState Nat) 9).isSome = true ∧
    (HeQueue.push
      (⟨[{ item := none, next := some 1 }, { item := some 7, next := some 2 },
         { item := some 8, next := none }], [], [], 0, 1, 2⟩ : QState Nat) 9).isSome = true :=
  claim_C9_push_total Nat
    ⟨[{ item := none, next := some 1 }, { item := some 7, next := some 2 },
      { item := some 8, next := none }], [], [], 0, 1, 2⟩
    [0, 1, 2] 9 (by refine ⟨⟨?_, ?_, ?_, ?_, ?_, ?_, ?_⟩, ?_⟩ <;> decide)

theorem aliveRead_writeNode_ne {α : Type u} (s : QState α) (a y : Nat) (nx : Node α)
    (hne : a ≠ y) : aliveRead (writeNode s a nx) y = aliveRead s y := by
  simp [aliveRead, writeNode, List.getElem?_set, hne]

theorem aliveRead_writeNode_self {α : Type u} (s : QState α) (a : Nat) (nx : Node α)
    {n₀ : Node α} (h : aliveRead s a = some n₀) :
    aliveRead (writeNode s a nx) a = some nx := by
  unfold aliveRead at h ⊢
  by_cases hf : a ∈ s.freed
  · rw [if_pos hf] at h; cases h
  · rw [if_neg hf] at h
    have hlt : a < s.mem.length := by
      by_cases hlt : a < s.mem.length
      · exact hlt
      · rw [List.getElem?_len_le (by omega)] at h; cases h
    simp [writeNode, hf, List.getElem?_set, hlt]

theorem nodeChain_frame_next {α : Type u} {s s' : QState α} {a : Nat} {l : List Nat}
    (h : NodeChain s a l)
    (hf : ∀ x ∈ l, ∀ nx : Node α, aliveRead s x = some nx →
      ∃ ny : Node α, aliveRead s' x = some ny ∧ ny.next = nx.next) :
    NodeChain s' a l := by
  induction h with
  | last hA hN =>
    obtain ⟨ny, hy, hyn⟩ := hf _ (by simp) _ hA
    exact NodeChain.last hy (by rw [hyn, hN])
  | cons hA hN h ih =>
    obtain ⟨ny, hy, hyn⟩ := hf _ (by simp) _ hA
    exact NodeChain.cons hy (by rw [hyn, hN])
      (ih fun x hx nx hnx => hf x (by simp [hx]) nx hnx)

theorem nodeChain_inv_cons {α : Type u} {s : QState α} {a : Nat} {l : List Nat}
    (h : NodeChain s a l) {n : Node α} {b : Nat}
    (hA : aliveRead s a = some n) (hN : n.next = some b) :
    ∃ t, l = a :: t ∧ NodeChain s b t := by
  cases h with
  | last hA' hN' =>
    rw [hA'] at hA
    cases hA
    rw [hN'] at hN
    cases hN
  | cons hA' hN' h' =>
    rw [hA'] at hA
    cases hA
    rw [hN'] at hN
    cases hN
    exact ⟨_, rfl, h'⟩

theorem nodeChain_first_read {α : Type u} {s : QState α} {a : Nat} {l : List Nat}
    (h : NodeChain s a l) : ∃ n : Node α, aliveRead s a = some n := by
  cases h with
  | last hA hN => exact ⟨_, hA⟩
  | cons hA hN h' => exact ⟨_, hA⟩

theorem nodeChain_snoc {α : Type u} {s : QState α} {c : Nat} {n nc : Node α}
    (hn : n.next = none) (hcn : nc.next = none) :
    ∀ {a : Nat} {l : List Nat}, NodeChain s a l →
      ∀ z, z = l.getLastD 0 → aliveRead s z = some n →
      aliveRead (writeNode s z { n with next := some c }) c = some nc →
      NodeChain (writeNode s z { n with next := some c }) a (l ++ [c]) := by
  intro a l h
  induction h with
  | last hA hN =>
    intro z hz hzr hcw
    rw [show ∀ (y : Nat), ([y] : List Nat).getLastD 0 = y from fun y => rfl] at hz
    subst hz
    rw [hA] at hzr
    cases hzr
    exact NodeChain.cons (aliveRead_writeNode_self s _ _ hA) rfl (NodeChain.last hcw hcn)
  | cons hA hN h' ih =>
    rename_i a0 b0 n0 t0
    intro z hz hzr hcw
    have ht : t0 ≠ [] := nodeChain_ne_nil h'
    have hz' : z = t0.getLastD 0 := by
      rw [hz, List.getLastD_cons]
      exact getLastD_default_irrel ht _ 0
    have hne : ¬(a0 = z) := by
      intro he
      rw [he, hzr] at hA
      cases hA
      rw [hn] at hN
      cases hN
    exact NodeChain.cons (by rw [aliveRead_writeNode_ne s z _ _ (fun hh => hne hh.symm)]; exact hA)
      hN (ih z hz' hzr hcw)

theorem nodeChain_self_mem {α : Type u} {s : QState α} {a : Nat} {l : List Nat}
    (h : NodeChain s a l) : a ∈ l := by
  cases h <;> simp

theorem chainInv_after_link {α : Type u} {s : QState α} {l : List Nat} (hinv : ChainInvL s l)
    (x : α) (z : Nat) (n : Node α)
    (hz : aliveRead { s with mem := s.mem ++ [({ item := some x, next := none } : Node α)] } z
      = some n)
    (hn : n.next = none) :
    ChainInv (writeNode { s with mem := s.mem ++ [({ item := some x, next := none } : Node α)] }
      z { n with next := some s.mem.length }) := by
  obtain ⟨hchain, hnodup, hhead, hdet, hitems, hfb, hdb⟩ := hinv
  have hch : NodeChain s s.head l := chainAux_nodeChain s _ _ _ hchain
  have hlenl : l.length ≤ s.mem.length + 1 := chainAux_length_le s _ _ _ hchain
  have hmem : ∀ y ∈ l, y < s.mem.length ∧ y ∉ s.freed := nodeChain_mem_lt hch
  have hheadl : s.head ∈ l := nodeChain_self_mem hch
  have hch1 : NodeChain { s with mem := s.mem ++ [({ item := some x, next := none } : Node α)] }
      s.head l := alloc_frame_chain hch _
  have hread1 : ∀ y ∈ l,
      aliveRead { s with mem := s.mem ++ [({ item := some x, next := none } : Node α)] } y =
        aliveRead s y := by
    intro y hy
    simp [aliveRead, List.getElem?_append, (hmem y hy).1]
  have hcnotl : s.mem.length ∉ l := fun hc => by have := (hmem _ hc).1; omega
  have hcread : aliveRead { s with mem := s.mem ++ [({ item := some x, next := none } : Node α)] }
      s.mem.length = some { item := some x, next := none } := by
    have hcf : s.mem.length ∉ s.freed := fun hf => by have := hfb _ hf; omega
    simp [aliveRead, hcf, List.getElem?_concat_length]
  by_cases hzl : z ∈ l
  · -- z is the chain's last node: the chain is extended by the fresh node
    have hzc : z ≠ s.mem.length := fun he => hcnotl (by rw [← he]; exact hzl)
    have hzlast : z = l.getLastD 0 := nodeChain_next_none_last hch1 z hzl n hz hn
    have hsz : aliveRead s z = some n := (hread1 z hzl).symm.trans hz
    have hWc : aliveRead (writeNode
        { s with mem := s.mem ++ [({ item := some x, next := none } : Node α)] }
        z { n with next := some s.mem.length }) s.mem.length =
        some { item := some x, next := none } := by
      rw [aliveRead_writeNode_ne _ z _ _ hzc]
      exact hcread
    have hWchain := nodeChain_snoc hn (show ({ item := some x, next := none } : Node α).next = none
      from rfl) hch1 z hzlast hz hWc
    refine ⟨l ++ [s.mem.length], ?_, ?_, ?_, ?_, ?_, ?_, ?_⟩
    · show chainAux _ _ _ = _
      refine nodeChain_chainAux hWchain _ ?_
      simp [writeNode]
      omega
    · simp only [List.nodup_append, List.nodup_cons, List.nodup_nil]
      refine ⟨hnodup, by simp, ?_⟩
      intro a ha
      simp only [List.mem_singleton]
      intro he
      exact hcnotl (by rw [← he]; exact ha)
    · show (aliveRead _ s.head).map Node.item = some none
      by_cases hzh : z = s.head
      · rw [hzh] at hz
        have hshn : aliveRead s s.head = some n := (hread1 _ hheadl).symm.trans hz
        rw [hshn] at hhead
        simp only [Option.map_some', Option.some.injEq] at hhead
        rw [hzh, aliveRead_writeNode_self _ _ _ hz]
        simp [hhead]
      · rw [aliveRead_writeNode_ne _ _ _ _ hzh, hread1 _ hheadl]
        exact hhead
    · intro a ha
      rcases List.mem_append.mp ha with ha' | ha'
      · show a ∉ _
        exact hdet a ha'
      · simp only [List.mem_singleton] at ha'
        show a ∉ _
        rw [ha']
        exact fun hf => by have := hdb _ hf; omega
    · intro a ha hne
      rcases List.mem_append.mp ha with ha' | ha'
      · by_cases haz : a = z
        · have hsa : aliveRead s a = some n := by rw [haz]; exact hsz
          have hit := hitems a ha' hne
          rw [hsa] at hit
          rw [haz, aliveRead_writeNode_self _ _ _ hz]
          simpa using hit
        · rw [aliveRead_writeNode_ne _ _ _ _ (fun he => haz he.symm), hread1 _ ha']
          exact hitems a ha' hne
      · simp only [List.mem_singleton] at ha'
        rw [ha', hWc]
        rfl
    · intro f hf
      have := hfb f hf
      simp only [writeNode, List.length_set, List.length_append, List.length_cons,
        List.length_nil]
      omega
    · intro f hf
      have := hdb f hf
      simp only [writeNode, List.length_set, List.length_append, List.length_cons,
        List.length_nil]
      omega
  · -- z outside the chain: the chain is unchanged
    have hWchain : NodeChain (writeNode
        { s with mem := s.mem ++ [({ item := some x, next := none } : Node α)] }
        z { n with next := some s.mem.length }) s.head l := by
      refine nodeChain_frame hch1 ?_
      intro y hy
      exact aliveRead_writeNode_ne _ _ _ _ (fun he => hzl (by rw [he]; exact hy))
    refine ⟨l, ?_, hnodup, ?_, hdet, ?_, ?_, ?_⟩
    · show chainAux _ _ _ = _
      refine nodeChain_chainAux hWchain _ ?_
      simp [writeNode]
      omega
    · show (aliveRead _ s.head).map Node.item = some none
      rw [aliveRead_writeNode_ne _ _ _ _ (fun he => hzl (by rw [he]; exact hheadl)),
        hread1 _ hheadl]
      exact hhead
    · intro a ha hne
      rw [aliveRead_writeNode_ne _ _ _ _ (fun he => hzl (by rw [he]; exact ha)), hread1 _ ha]
      exact hitems a ha hne
    · intro f hf
      have := hfb f hf
      simp only [writeNode, List.length_set, List.length_append, List.length_cons,
        List.length_nil]
      omega
    · intro f hf
      have := hdb f hf
      simp only [writeNode, List.length_set, List.length_append, List.length_cons,
        List.length_nil]
      omega

theorem chainAux_congr {α : Type u} {s s' : QState α}
    (hread : ∀ a, aliveRead s' a = aliveRead s a) :
    ∀ fuel a, chainAux s' fuel a = chainAux s fuel a := by
  intro fuel
  induction fuel with
  | zero => intro a; rfl
  | succ fuel ih =>
    intro a
    simp only [chainAux, hread]
    cases aliveRead s a with
    | none => rfl
    | some n =>
      cases hx : n.next with
      | none => simp [hx]
      | some b => simp [hx, ih]

theorem chainInvL_congr {α : Type u} {s s' : QState α} {l : List Nat}
    (hm : s'.mem = s.mem) (hf : s'.freed = s.freed) (hd : s'.detached = s.detached)
    (hh : s'.head = s.head) (h : ChainInvL s l) : ChainInvL s' l := by
  have hread : ∀ a, aliveRead s' a = aliveRead s a := by
    intro a
    simp [aliveRead, hm, hf]
  obtain ⟨hchain, hnodup, hhead, hdet, hitems, hfb, hdb⟩ := h
  refine ⟨?_, hnodup, ?_, ?_, ?_, ?_, ?_⟩
  · show chainAux s' (s'.mem.length + 1) s'.head = some l
    rw [hm, hh, chainAux_congr hread]
    exact hchain
  · show (aliveRead s' s'.head).map Node.item = some none
    rw [hread, hh]
    exact hhead
  · intro a ha
    rw [hd]
    exact hdet a ha
  · intro a ha hne
    rw [hread]
    exact hitems a ha (by rwa [hh] at hne)
  · intro a ha
    rw [hm]
    exact hfb a (by rwa [hf] at ha)
  · intro a ha
    rw [hm]
    exact hdb a (by rwa [hd] at ha)

theorem chainInv_enqueue {α : Type u} {s s' : QState α} {l : List Nat} {x : α}
    (hinv : ChainInvL s l) (h : LinkedQueue.enqueue s x = some s') : ChainInv s' := by
  unfold LinkedQueue.enqueue at h
  cases hS : LinkedQueue.enqueueStruct s x with
  | none => rw [hS] at h; cases h
  | some s2 =>
    rw [hS] at h
    simp only [Option.map_some', Option.some.injEq] at h
    subst h
    unfold LinkedQueue.enqueueStruct at hS
    dsimp only [allocNode] at hS
    split at hS
    · cases hS
    next W hL =>
      simp only [Option.some.injEq] at hS
      obtain ⟨z, n, hz, hn, hW⟩ := linkLoop_shape _ _ _ _ _ hL
      subst hW
      obtain ⟨l', hl'⟩ := chainInv_after_link hinv x z n hz hn
      subst hS
      by_cases ht : (writeNode { s with
          mem := s.mem ++ [({ item := some x, next := none } : Node α)] } z
          { n with next := some s.mem.length }).tail = s.tail
      · rw [if_pos ht]
        refine ⟨l', chainInvL_congr ?_ ?_ ?_ ?_ hl'⟩ <;> rfl
      · rw [if_neg ht]
        refine ⟨l', chainInvL_congr ?_ ?_ ?_ ?_ hl'⟩ <;> rfl

theorem chainInv_hePush {α : Type u} {s s' : QState α} {l : List Nat} {x : α}
    (hinv : ChainInvL s l) (h : HeQueue.push s x = some s') : ChainInv s' := by
  unfold HeQueue.push at h
  cases hS : HeQueue.pushStruct s x with
  | none => rw [hS] at h; cases h
  | some s2 =>
    rw [hS] at h
    simp only [Option.map_some', Option.some.injEq] at h
    subst h
    unfold HeQueue.pushStruct at hS
    dsimp only [allocNode] at hS
    split at hS
    · cases hS
    next W tl hL =>
      simp only [Option.some.injEq] at hS
      obtain ⟨n, hz, hn, hW⟩ := hePushLoop_shape _ _ _ _ _ hL
      have hz' : aliveRead { s with
          mem := s.mem ++ [({ item := some x, next := none } : Node α)] } tl = some n := hz
      have hCI := chainInv_after_link hinv x tl n hz' hn
      obtain ⟨l', hl'⟩ := hCI
      subst hS
      subst hW
      by_cases ht : (writeNode { { s with
            mem := s.mem ++ [({ item := some x, next := none } : Node α)] } with tail := tl } tl
            { n with next := some s.mem.length }).tail = tl
      · rw [if_pos ht]
        refine ⟨l', chainInvL_congr ?_ ?_ ?_ ?_ hl'⟩ <;> rfl
      · rw [if_neg ht]
        refine ⟨l', chainInvL_congr ?_ ?_ ?_ ?_ hl'⟩ <;> rfl

theorem chainInv_crsPush {α : Type u} {s s' : QState α} {l : List Nat} {x : α}
    (hinv : ChainInvL s l) (h : CrsQueue.push s x = some s') : ChainInv s' :=
  chainInv_enqueue hinv h

theorem chainInv_detach_core {α : Type u} {s s' : QState α} {l : List Nat}
    {hn nn : Node α} {nx : Nat}
    (hinv : ChainInvL s l)
    (hhn : aliveRead s s.head = some hn) (hx : hn.next = some nx)
    (hnn : aliveRead s nx = some nn)
    (hm : s'.mem = s.mem.set nx { nn with item := none })
    (hh : s'.head = nx)
    (hfreed_sub : ∀ y ∈ s'.freed, y ∈ s.freed ∨ y = s.head)
    (hdet_sub : ∀ y ∈ s'.detached, y ∈ s.detached ∨ y = s.head) :
    ChainInv s' := by
  obtain ⟨hchain, hnodup, hhead, hdet, hitems, hfb, hdb⟩ := hinv
  have hch : NodeChain s s.head l := chainAux_nodeChain s _ _ _ hchain
  have hlenl : l.length ≤ s.mem.length + 1 := chainAux_length_le s _ _ _ hchain
  obtain ⟨t', hlt, hct⟩ := nodeChain_inv_cons hch hhn hx
  have hmemt : ∀ y ∈ t', y < s.mem.length ∧ y ∉ s.freed := by
    intro y hy
    exact nodeChain_mem_lt hch y (by rw [hlt]; exact List.mem_cons_of_mem _ hy)
  have hheadnott : s.head ∉ t' := by
    rw [hlt] at hnodup
    exact (List.nodup_cons.mp hnodup).1
  have hnodupt : t'.Nodup := by
    rw [hlt] at hnodup
    exact (List.nodup_cons.mp hnodup).2
  have hreadt : ∀ y ∈ t', y ≠ nx → aliveRead s' y = aliveRead s y := by
    intro y hy hyn
    have hb := hmemt y hy
    have hyf : y ∉ s'.freed := by
      intro hyf
      rcases hfreed_sub y hyf with h1 | h1
      · exact hb.2 h1
      · exact hheadnott (h1 ▸ hy)
    unfold aliveRead
    rw [if_neg hyf, if_neg hb.2, hm, List.getElem?_set, if_neg (fun he => hyn he.symm)]
  have hreadnx : aliveRead s' nx = some { nn with item := none } := by
    have hnxf : nx ∉ s.freed := by
      unfold aliveRead at hnn
      by_cases hf : nx ∈ s.freed
      · rw [if_pos hf] at hnn; cases hnn
      · exact hf
    have hnxlt : nx < s.mem.length := by
      unfold aliveRead at hnn
      rw [if_neg hnxf] at hnn
      by_cases hlt' : nx < s.mem.length
      · exact hlt'
      · rw [List.getElem?_len_le (by omega)] at hnn; cases hnn
    have hnxf' : nx ∉ s'.freed := by
      intro hyf
      rcases hfreed_sub nx hyf with h1 | h1
      · exact hnxf h1
      · -- nx = s.head: then s.head ∈ t' (chain from nx) contradicting nodup
        exact hheadnott (h1 ▸ nodeChain_self_mem hct)
    unfold aliveRead
    rw [if_neg hnxf', hm, List.getElem?_set, if_pos rfl, if_pos hnxlt]
  have hchain' : NodeChain s' nx t' := by
    refine nodeChain_frame_next hct ?_
    intro y hy ny hny
    by_cases hyn : y = nx
    · refine ⟨{ nn with item := none }, by rw [hyn]; exact hreadnx, ?_⟩
      rw [hyn] at hny
      rw [hnn] at hny
      cases hny
      rfl
    · exact ⟨ny, by rw [hreadt y hy hyn]; exact hny, rfl⟩
  refine ⟨t', ?_, hnodupt, ?_, ?_, ?_, ?_, ?_⟩
  · show chainAux s' (s'.mem.length + 1) s'.head = some t'
    rw [hh]
    refine nodeChain_chainAux hchain' _ ?_
    have : s'.mem.length = s.mem.length := by rw [hm]; simp
    rw [hlt] at hlenl
    simp at hlenl
    omega
  · show (aliveRead s' s'.head).map Node.item = some none
    rw [hh, hreadnx]
    rfl
  · intro a ha
    intro had
    rcases hdet_sub a had with h1 | h1
    · exact hdet a (by rw [hlt]; exact List.mem_cons_of_mem _ ha) h1
    · exact hheadnott (h1 ▸ ha)
  · intro a ha hne
    rw [hh] at hne
    rw [hreadt a ha hne]
    refine hitems a (by rw [hlt]; exact List.mem_cons_of_mem _ ha) ?_
    intro he
    exact hheadnott (he ▸ ha)
  · intro f hf
    have : s'.mem.length = s.mem.length := by rw [hm]; simp
    rw [this]
    rcases hfreed_sub f hf with h1 | h1
    · exact hfb f h1
    · rw [h1]
      unfold aliveRead at hhn
      by_cases hlt' : s.head < s.mem.length
      · exact hlt'
      · by_cases hfh : s.head ∈ s.freed
        · rw [if_pos hfh] at hhn; cases hhn
        · rw [if_neg hfh, List.getElem?_len_le (by omega)] at hhn; cases hhn
  · intro f hf
    have : s'.mem.length = s.mem.length := by rw [hm]; simp
    rw [this]
    rcases hdet_sub f hf with h1 | h1
    · exact hdb f h1
    · rw [h1]
      unfold aliveRead at hhn
      by_cases hlt' : s.head < s.mem.length
      · exact hlt'
      · by_cases hfh : s.head ∈ s.freed
        · rw [if_pos hfh] at hhn; cases hhn
        · rw [if_neg hfh, List.getElem?_len_le (by omega)] at hhn; cases hhn

theorem chainInv_crsPop {α : Type u} {s s' : QState α} {l : List Nat} {r : Option α}
    (hinv : ChainInvL s l) (h : CrsQueue.pop s = some (s', r)) : ChainInv s' := by
  have hinv' := hinv
  obtain ⟨hchain, hnodup, hhead, hdet, hitems, hfb, hdb⟩ := hinv'
  obtain ⟨hn, hhn, hni⟩ : ∃ m : Node α, aliveRead s s.head = some m ∧ m.item = none := by
    cases hA : aliveRead s s.head with
    | none => rw [hA] at hhead; cases hhead
    | some m =>
      rw [hA] at hhead
      simp only [Option.map_some', Option.some.injEq] at hhead
      exact ⟨m, rfl, hhead⟩
  unfold CrsQueue.pop at h
  split at h
  · simp only [Option.some.injEq, Prod.mk.injEq] at h
    exact ⟨l, by rw [← h.1]; exact hinv⟩
  · cases hx : hn.next with
    | none =>
      have hloop := crsPopLoop_of_empty s s.mem.length (popRead_of_next_none s hhn hx)
      rw [hloop] at h
      dsimp only at h
      simp only [Option.some.injEq, Prod.mk.injEq] at h
      exact ⟨l, by rw [← h.1]; exact hinv⟩
    | some nx =>
      have hch : NodeChain s s.head l := chainAux_nodeChain s _ _ _ hchain
      obtain ⟨t, hlt, hct⟩ := nodeChain_inv_cons hch hhn hx
      obtain ⟨nn, hnn⟩ := nodeChain_first_read hct
      have hT : CrsQueue.popTake s { head := s.head, next := nx } =
          some (writeNode s nx { nn with item := none }, nn.item) := by
        simp only [CrsQueue.popTake, hnn]
      have hloop := crsPopLoop_of_cas_ok s s.mem.length (popRead_of_next_some s hhn hx) hT rfl
      rw [hloop] at h
      dsimp only at h
      simp only [Option.some.injEq, Prod.mk.injEq] at h
      refine chainInv_detach_core hinv hhn hx hnn ?_ ?_ ?_ ?_ <;> rw [← h.1]
      · rfl
      · intro y hy
        exact Or.inl hy
      · intro y hy
        rcases List.mem_append.mp hy with h1 | h1
        · exact Or.inl h1
        · simp only [List.mem_singleton] at h1
          exact Or.inr h1

theorem chainInv_hePop {α : Type u} {s s' : QState α} {l : List Nat} {r : Option α}
    (hinv : ChainInvL s l) (h : HeQueue.pop s = some (s', r)) : ChainInv s' := by
  have hinv' := hinv
  obtain ⟨hchain, hnodup, hhead, hdet, hitems, hfb, hdb⟩ := hinv'
  obtain ⟨hn, hhn, hni⟩ : ∃ m : Node α, aliveRead s s.head = some m ∧ m.item = none := by
    cases hA : aliveRead s s.head with
    | none => rw [hA] at hhead; cases hhead
    | some m =>
      rw [hA] at hhead
      simp only [Option.map_some', Option.some.injEq] at hhead
      exact ⟨m, rfl, hhead⟩
  unfold HeQueue.pop at h
  split at h
  · simp only [Option.some.injEq, Prod.mk.injEq] at h
    exact ⟨l, by rw [← h.1]; exact hinv⟩
  · cases hx : hn.next with
    | none =>
      have hloop := hePopLoop_of_empty s s.mem.length (popRead_of_next_none s hhn hx)
      rw [hloop] at h
      dsimp only at h
      simp only [Option.some.injEq, Prod.mk.injEq] at h
      exact ⟨l, by rw [← h.1]; exact hinv⟩
    | some nx =>
      have hch : NodeChain s s.head l := chainAux_nodeChain s _ _ _ hchain
      obtain ⟨t, hlt, hct⟩ := nodeChain_inv_cons hch hhn hx
      obtain ⟨nn, hnn⟩ := nodeChain_first_read hct
      have hA : aliveRead { s with head := nx } nx = some nn := hnn
      have hloop := hePopLoop_of_cas_ok s s.mem.length
        (popRead_of_next_some s hhn hx) rfl hA
      rw [hloop] at h
      dsimp only at h
      simp only [Option.some.injEq, Prod.mk.injEq] at h
      refine chainInv_detach_core hinv hhn hx hnn ?_ ?_ ?_ ?_ <;> rw [← h.1]
      · rfl
      · rfl
      · intro y hy
        exact Or.inl hy
      · intro y hy
        rcases List.mem_append.mp hy with h1 | h1
        · exact Or.inl h1
        · simp only [List.mem_singleton] at h1
          exact Or.inr h1

theorem chainInv_lqDequeue {α : Type u} {s s' : QState α} {l : List Nat} {r : Option α}
    (hinv : ChainInvL s l) (h : LinkedQueue.dequeue s = some (s', r)) : ChainInv s' := by
  have hinv' := hinv
  obtain ⟨hchain, hnodup, hhead, hdet, hitems, hfb, hdb⟩ := hinv'
  obtain ⟨hn, hhn, hni⟩ : ∃ m : Node α, aliveRead s s.head = some m ∧ m.item = none := by
    cases hA : aliveRead s s.head with
    | none => rw [hA] at hhead; cases hhead
    | some m =>
      rw [hA] at hhead
      simp only [Option.map_some', Option.some.injEq] at hhead
      exact ⟨m, rfl, hhead⟩
  unfold LinkedQueue.dequeue at h
  split at h
  · simp only [Option.some.injEq, Prod.mk.injEq] at h
    exact ⟨l, by rw [← h.1]; exact hinv⟩
  · rw [hhn] at h
    dsimp only at h
    cases hx : hn.next with
    | none =>
      rw [hx] at h
      cases h
    | some nx =>
      rw [hx] at h
      dsimp only at h
      have hch : NodeChain s s.head l := chainAux_nodeChain s _ _ _ hchain
      obtain ⟨t, hlt, hct⟩ := nodeChain_inv_cons hch hhn hx
      obtain ⟨nn, hnn⟩ := nodeChain_first_read hct
      have hnxh : nx ≠ s.head := by
        intro he
        rw [hlt] at hnodup
        exact (List.nodup_cons.mp hnodup).1 (he ▸ nodeChain_self_mem hct)
      have hread3 :
          aliveRead { s with head := nx, freed := s.freed ++ [s.head], len := s.len - 1 } nx = some nn := by
        unfold aliveRead at hnn ⊢
        simp only [List.mem_append, List.mem_singleton]
        by_cases hf : nx ∈ s.freed
        · rw [if_pos hf] at hnn; cases hnn
        · rw [if_neg hf] at hnn
          rw [if_neg (by push_neg; exact ⟨hf, hnxh⟩)]
          exact hnn
      rw [hread3] at h
      dsimp only at h
      simp only [Option.some.injEq, Prod.mk.injEq] at h
      refine chainInv_detach_core hinv hhn hx hnn ?_ ?_ ?_ ?_ <;> rw [← h.1]
      · rfl
      · rfl
      · intro y hy
        rcases List.mem_append.mp hy with h1 | h1
        · exact Or.inl h1
        · simp only [List.mem_singleton] at h1
          exact Or.inr h1
      · intro y hy
        exact Or.inl hy

theorem chainInvL_new (α : Type u) : ChainInvL (LinkedQueue.new α) [0] := by
  refine ⟨rfl, ?_, rfl, ?_, ?_, ?_, ?_⟩ <;> simp [LinkedQueue.new]

/-- Claim C5: the structural invariant — the chain from `head` is acyclic and
singly linked up to the true last node, the queue owns exactly one live
sentinel (the node at the head position, the only chain node whose payload
slot is empty), and the head node's item slot is empty — holds of `new()` and
is preserved by every completed `push`/`enqueue` and `pop`/`dequeue` of the
three linked variants. -/
theorem claim_C5_chain_invariants (α : Type u) :
    (ChainInv (LinkedQueue.new α) ∧ ChainInv (CrsQueue.new α) ∧ ChainInv (HeQueue.new α)) ∧
    (∀ (s s' : QState α) (l : List Nat) (x : α), ChainInvL s l →
      (LinkedQueue.enqueue s x = some s' ∨ CrsQueue.push s x = some s' ∨
        HeQueue.push s x = some s') →
      ChainInv s') ∧
    (∀ (s s' : QState α) (l : List Nat) (r : Option α), ChainInvL s l →
      (LinkedQueue.dequeue s = some (s', r) ∨ CrsQueue.pop s = some (s', r) ∨
        HeQueue.pop s = some (s', r)) →
      ChainInv s') := by
  refine ⟨⟨⟨[0], chainInvL_new α⟩, ⟨[0], chainInvL_new α⟩, ⟨[0], chainInvL_new α⟩⟩, ?_, ?_⟩
  · intro s s' l x hinv h
    rcases h with h | h | h
    · exact chainInv_enqueue hinv h
    · exact chainInv_crsPush hinv h
    · exact chainInv_hePush hinv h
  · intro s s' l r hinv h
    rcases h with h | h | h
    · exact chainInv_lqDequeue hinv h
    · exact chainInv_crsPop hinv h
    · exact chainInv_hePop hinv h

/-- Witness for claim C5: popping the one-element canonical `CrsQueue` state
yields a state that still satisfies the structural invariant. -/
theorem claim_C5_chain_invariants_witness :
    ChainInv
      ({ mem := [({ item := none, next := some 1 } : Node Nat),
                 { item := none, next := none }],
         freed := [], detached := [0], head := 1, tail := 1, len := 0 } : QState Nat) :=
  (claim_C5_chain_invariants Nat).2.2 (canonEp [5] 0)
    ({ mem := [({ item := none, next := some 1 } : Node Nat),
               { item := none, next := none }],
       freed := [], detached := [0], head := 1, tail := 1, len := 0 } : QState Nat)
    [0, 1] (some 5)
    (by refine ⟨?_, ?_, ?_, ?_, ?_, ?_, ?_⟩ <;> decide)
    (Or.inr (Or.inl (by decide)))
